import Mathlib

/-!
Verification of the SM4/SM3 cryptographic library (projects 1 and 4):
shallow embedding of the C sources in Lean 4, with theorems checking the
natural-language specification against the code.

Conventions:
* C `uint8_t` is `Byte := Fin 256`; C `uint32_t` and `uint64_t` are `Nat`
  with explicit `% 2^32` / `% 2^64` where the C arithmetic wraps.
* C arrays are Lean lists; loops are folds or structural recursion.
-/

/-! ## Bytes and 32-bit words -/

abbrev Byte := Fin 256

/-- Reduce a natural number to a byte, as C truncation `& 0xFF` does. -/
def byteOf (n : Nat) : Byte := ⟨n % 256, Nat.mod_lt _ (by omega)⟩

/-- Byte XOR, the C `^` on `uint8_t`. -/
def bxor (a b : Byte) : Byte :=
  ⟨a.val ^^^ b.val, Nat.xor_lt_two_pow (n := 8) a.isLt b.isLt⟩

/-- Rotate a 32-bit word left by `n` bits: the C `(x << n) | (x >> (32 - n))`
on `uint32_t` operands. -/
def rotl32 (x n : Nat) : Nat := ((x <<< n) % 2 ^ 32) ||| ((x % 2 ^ 32) >>> (32 - n))

/-- Addition of 32-bit words, wrapping as C `uint32_t` addition does. -/
def add32 (a b : Nat) : Nat := (a + b) % 2 ^ 32

/-- Big-endian load of four bytes into a 32-bit word:
`(b0 << 24) | (b1 << 16) | (b2 << 8) | b3`. -/
def loadB (b0 b1 b2 b3 : Byte) : Nat :=
  (b0.val <<< 24) ||| (b1.val <<< 16) ||| (b2.val <<< 8) ||| b3.val

/-- Big-endian store of a 32-bit word as four bytes. -/
def storeW32 (w : Nat) : List Byte :=
  [byteOf (w >>> 24), byteOf (w >>> 16), byteOf (w >>> 8), byteOf w]

theorem rotl32_lt (x n : Nat) : rotl32 x n < 2 ^ 32 := by
  refine Nat.or_lt_two_pow (Nat.mod_lt _ (by norm_num)) ?_
  rw [Nat.shiftRight_eq_div_pow]
  exact Nat.lt_of_le_of_lt (Nat.div_le_self _ _) (Nat.mod_lt _ (by norm_num))

theorem add32_lt (a b : Nat) : add32 a b < 2 ^ 32 := Nat.mod_lt _ (by norm_num)

theorem shiftLeft_byte_lt (b : Byte) (s : Nat) (h : s + 8 ≤ 32) :
    b.val <<< s < 2 ^ 32 := by
  rw [Nat.shiftLeft_eq]
  calc b.val * 2 ^ s < 2 ^ 8 * 2 ^ s := by
        exact mul_lt_mul_of_pos_right b.isLt (by positivity)
    _ = 2 ^ (8 + s) := by rw [Nat.pow_add]
    _ ≤ 2 ^ 32 := Nat.pow_le_pow_right (by omega) (by omega)

/-- Test bit of a value reduced mod 256, the byte view of a word. -/
theorem testBit_mod256 (x i : Nat) :
    Nat.testBit (x % 256) i = (decide (i < 8) && Nat.testBit x i) := by
  have h : (256 : Nat) = 2 ^ 8 := by norm_num
  rw [h, Nat.testBit_mod_two_pow]

theorem loadB_lt (b0 b1 b2 b3 : Byte) : loadB b0 b1 b2 b3 < 2 ^ 32 := by
  unfold loadB
  refine Nat.or_lt_two_pow (Nat.or_lt_two_pow (Nat.or_lt_two_pow ?_ ?_) ?_) ?_
  · exact shiftLeft_byte_lt _ _ (by omega)
  · exact shiftLeft_byte_lt _ _ (by omega)
  · exact shiftLeft_byte_lt _ _ (by omega)
  · exact Nat.lt_of_lt_of_le b3.isLt (by norm_num)

theorem testBit_byte_high (b : Byte) {i : Nat} (h : 8 ≤ i) :
    Nat.testBit b.val i = false := by
  apply Nat.testBit_lt_two_pow
  calc b.val < 256 := b.isLt
    _ = 2 ^ 8 := by norm_num
    _ ≤ 2 ^ i := Nat.pow_le_pow_right (by omega) h

/-- Extracting the top byte of a big-endian load gives the byte back. -/
theorem loadB_shift24 (b0 b1 b2 b3 : Byte) :
    (loadB b0 b1 b2 b3 >>> 24) % 256 = b0.val := by
  apply Nat.eq_of_testBit_eq
  intro i
  simp only [loadB, testBit_mod256, Nat.testBit_shiftRight, Nat.testBit_or,
    Nat.testBit_shiftLeft]
  rcases Nat.lt_or_ge i 8 with hi | hi
  · have e0 : 24 + i - 24 = i := by omega
    simp [hi, e0, show (24:Nat) ≤ 24 + i by omega, show (16:Nat) ≤ 24 + i by omega,
      show (8:Nat) ≤ 24 + i by omega,
      testBit_byte_high b1 (show 8 ≤ 24 + i - 16 by omega),
      testBit_byte_high b2 (show 8 ≤ 24 + i - 8 by omega),
      testBit_byte_high b3 (show 8 ≤ 24 + i by omega)]
  · simp [Nat.not_lt.mpr hi, testBit_byte_high b0 hi]

theorem loadB_shift16 (b0 b1 b2 b3 : Byte) :
    (loadB b0 b1 b2 b3 >>> 16) % 256 = b1.val := by
  apply Nat.eq_of_testBit_eq
  intro i
  simp only [loadB, testBit_mod256, Nat.testBit_shiftRight, Nat.testBit_or,
    Nat.testBit_shiftLeft]
  rcases Nat.lt_or_ge i 8 with hi | hi
  · have e1 : 16 + i - 16 = i := by omega
    simp [hi, e1, show ¬ (24 ≤ 16 + i) by omega, show (16:Nat) ≤ 16 + i by omega,
      show (8:Nat) ≤ 16 + i by omega,
      testBit_byte_high b2 (show 8 ≤ 16 + i - 8 by omega),
      testBit_byte_high b3 (show 8 ≤ 16 + i by omega)]
  · simp [Nat.not_lt.mpr hi, testBit_byte_high b1 hi]

theorem loadB_shift8 (b0 b1 b2 b3 : Byte) :
    (loadB b0 b1 b2 b3 >>> 8) % 256 = b2.val := by
  apply Nat.eq_of_testBit_eq
  intro i
  simp only [loadB, testBit_mod256, Nat.testBit_shiftRight, Nat.testBit_or,
    Nat.testBit_shiftLeft]
  rcases Nat.lt_or_ge i 8 with hi | hi
  · have e2 : 8 + i - 8 = i := by omega
    simp [hi, e2, show ¬ (24 ≤ 8 + i) by omega, show ¬ (16 ≤ 8 + i) by omega,
      show (8:Nat) ≤ 8 + i by omega,
      testBit_byte_high b3 (show 8 ≤ 8 + i by omega)]
  · simp [Nat.not_lt.mpr hi, testBit_byte_high b2 hi]

theorem loadB_mod256 (b0 b1 b2 b3 : Byte) :
    loadB b0 b1 b2 b3 % 256 = b3.val := by
  apply Nat.eq_of_testBit_eq
  intro i
  simp only [loadB, testBit_mod256, Nat.testBit_or, Nat.testBit_shiftLeft]
  rcases Nat.lt_or_ge i 8 with hi | hi
  · simp [hi, show ¬ (24 ≤ i) by omega, show ¬ (16 ≤ i) by omega,
      show ¬ (8 ≤ i) by omega]
  · simp [Nat.not_lt.mpr hi, testBit_byte_high b3 hi]

/-- Storing a loaded word gives the original four bytes back. -/
theorem storeW32_loadB (b0 b1 b2 b3 : Byte) :
    storeW32 (loadB b0 b1 b2 b3) = [b0, b1, b2, b3] := by
  simp only [storeW32, byteOf]
  refine List.ext_get (by simp) ?_
  intro n h1 h2
  match n, h1 with
  | 0, _ => exact Fin.ext (loadB_shift24 b0 b1 b2 b3)
  | 1, _ => exact Fin.ext (loadB_shift16 b0 b1 b2 b3)
  | 2, _ => exact Fin.ext (loadB_shift8 b0 b1 b2 b3)
  | 3, _ => exact Fin.ext (loadB_mod256 b0 b1 b2 b3)

/-- Loading stored bytes gives the original 32-bit word back. -/
theorem loadB_storeW32 (w : Nat) (hw : w < 2 ^ 32) :
    loadB (byteOf (w >>> 24)) (byteOf (w >>> 16)) (byteOf (w >>> 8)) (byteOf w) = w := by
  apply Nat.eq_of_testBit_eq
  intro i
  simp only [loadB, byteOf, Nat.testBit_or, Nat.testBit_shiftLeft,
    testBit_mod256, Nat.testBit_shiftRight]
  rcases Nat.lt_or_ge i 8 with hi | hi
  · simp [show ¬ (24 ≤ i) by omega, show ¬ (16 ≤ i) by omega, show ¬ (8 ≤ i) by omega, hi]
  rcases Nat.lt_or_ge i 16 with hi2 | hi2
  · have : 8 + (i - 8) = i := by omega
    simp [show ¬ (24 ≤ i) by omega, show ¬ (16 ≤ i) by omega, show (8:Nat) ≤ i by omega,
      show i - 8 < 8 by omega, show ¬ i < 8 by omega, this]
  rcases Nat.lt_or_ge i 24 with hi3 | hi3
  · have : 16 + (i - 16) = i := by omega
    simp [show ¬ (24 ≤ i) by omega, show (16:Nat) ≤ i by omega, show (8:Nat) ≤ i by omega,
      show i - 16 < 8 by omega, show ¬ i - 8 < 8 by omega, show ¬ i < 8 by omega, this]
  rcases Nat.lt_or_ge i 32 with hi4 | hi4
  · have : 24 + (i - 24) = i := by omega
    simp [show (24:Nat) ≤ i by omega, show (16:Nat) ≤ i by omega, show (8:Nat) ≤ i by omega,
      show i - 24 < 8 by omega, show ¬ i - 16 < 8 by omega, show ¬ i - 8 < 8 by omega,
      show ¬ i < 8 by omega, this]
  · have hw' : Nat.testBit w i = false :=
      Nat.testBit_lt_two_pow (Nat.lt_of_lt_of_le hw (Nat.pow_le_pow_right (by omega) hi4))
    simp [show (24:Nat) ≤ i by omega, show (16:Nat) ≤ i by omega, show (8:Nat) ≤ i by omega,
      show ¬ i - 24 < 8 by omega, show ¬ i - 16 < 8 by omega, show ¬ i - 8 < 8 by omega,
      show ¬ i < 8 by omega, hw']

/-! ## SM4 block cipher (project1, `sm4_optimized.c`)

The table-driven implementation in `src/project1/src/sm4_optimized.c` is
embedded below.  The basic building blocks it links against
(`sm4_sbox`, `sm4_fk`, `sm4_ck`, `sm4_rotl`, `sm4_l`, `sm4_l_prime`,
`sm4_tau`) are declared in `sm4.h` but their defining translation unit is
not part of the sources, so they are modelled from the specification. -/

/-- Modelled from the spec: the fixed 256-entry S-box of the SM4 standard
(`sm4_sbox`, declared `extern` in `sm4.h`; its defining file is missing from
the sources).  These are the standard values, pinned down by the published
test vector quoted in the spec. -/
def sm4_sbox : List Nat :=
  [0xd6, 0x90, 0xe9, 0xfe, 0xcc, 0xe1, 0x3d, 0xb7, 0x16, 0xb6, 0x14, 0xc2, 0x28, 0xfb, 0x2c, 0x05,
   0x2b, 0x67, 0x9a, 0x76, 0x2a, 0xbe, 0x04, 0xc3, 0xaa, 0x44, 0x13, 0x26, 0x49, 0x86, 0x06, 0x99,
   0x9c, 0x42, 0x50, 0xf4, 0x91, 0xef, 0x98, 0x7a, 0x33, 0x54, 0x0b, 0x43, 0xed, 0xcf, 0xac, 0x62,
   0xe4, 0xb3, 0x1c, 0xa9, 0xc9, 0x08, 0xe8, 0x95, 0x80, 0xdf, 0x94, 0xfa, 0x75, 0x8f, 0x3f, 0xa6,
   0x47, 0x07, 0xa7, 0xfc, 0xf3, 0x73, 0x17, 0xba, 0x83, 0x59, 0x3c, 0x19, 0xe6, 0x85, 0x4f, 0xa8,
   0x68, 0x6b, 0x81, 0xb2, 0x71, 0x64, 0xda, 0x8b, 0xf8, 0xeb, 0x0f, 0x4b, 0x70, 0x56, 0x9d, 0x35,
   0x1e, 0x24, 0x0e, 0x5e, 0x63, 0x58, 0xd1, 0xa2, 0x25, 0x22, 0x7c, 0x3b, 0x01, 0x21, 0x78, 0x87,
   0xd4, 0x00, 0x46, 0x57, 0x9f, 0xd3, 0x27, 0x52, 0x4c, 0x36, 0x02, 0xe7, 0xa0, 0xc4, 0xc8, 0x9e,
   0xea, 0xbf, 0x8a, 0xd2, 0x40, 0xc7, 0x38, 0xb5, 0xa3, 0xf7, 0xf2, 0xce, 0xf9, 0x61, 0x15, 0xa1,
   0xe0, 0xae, 0x5d, 0xa4, 0x9b, 0x34, 0x1a, 0x55, 0xad, 0x93, 0x32, 0x30, 0xf5, 0x8c, 0xb1, 0xe3,
   0x1d, 0xf6, 0xe2, 0x2e, 0x82, 0x66, 0xca, 0x60, 0xc0, 0x29, 0x23, 0xab, 0x0d, 0x53, 0x4e, 0x6f,
   0xd5, 0xdb, 0x37, 0x45, 0xde, 0xfd, 0x8e, 0x2f, 0x03, 0xff, 0x6a, 0x72, 0x6d, 0x6c, 0x5b, 0x51,
   0x8d, 0x1b, 0xaf, 0x92, 0xbb, 0xdd, 0xbc, 0x7f, 0x11, 0xd9, 0x5c, 0x41, 0x1f, 0x10, 0x5a, 0xd8,
   0x0a, 0xc1, 0x31, 0x88, 0xa5, 0xcd, 0x7b, 0xbd, 0x2d, 0x74, 0xd0, 0x12, 0xb8, 0xe5, 0xb4, 0xb0,
   0x89, 0x69, 0x97, 0x4a, 0x0c, 0x96, 0x77, 0x7e, 0x65, 0xb9, 0xf1, 0x09, 0xc5, 0x6e, 0xc6, 0x84,
   0x18, 0xf0, 0x7d, 0xec, 0x3a, 0xdc, 0x4d, 0x20, 0x79, 0xee, 0x5f, 0x3e, 0xd7, 0xcb, 0x39, 0x48]

/-- S-box lookup `sm4_sbox[i]` for a byte-valued index. -/
def sboxAt (i : Nat) : Nat := sm4_sbox.getD i 0

/-- Modelled from the spec: the linear diffusion
`L(x) = x ^ rotl(x,2) ^ rotl(x,10) ^ rotl(x,18) ^ rotl(x,24)`
(`sm4_l`, declared in `sm4.h`; its defining file is missing from the sources). -/
def sm4_l (b : Nat) : Nat :=
  b ^^^ rotl32 b 2 ^^^ rotl32 b 10 ^^^ rotl32 b 18 ^^^ rotl32 b 24

/-- Modelled from the spec: the key-schedule diffusion
`L'(x) = x ^ rotl(x,13) ^ rotl(x,23)` (`sm4_l_prime`, declared in `sm4.h`;
its defining file is missing from the sources). -/
def sm4_l_prime (b : Nat) : Nat := b ^^^ rotl32 b 13 ^^^ rotl32 b 23

/-- Modelled from the spec: byte-wise S-box substitution of a 32-bit word
(`sm4_tau`, declared in `sm4.h`; its defining file is missing from the
sources). -/
def sm4_tau (a : Nat) : Nat :=
  (sboxAt ((a >>> 24) % 256) <<< 24) ||| (sboxAt ((a >>> 16) % 256) <<< 16) |||
    (sboxAt ((a >>> 8) % 256) <<< 8) ||| sboxAt (a % 256)

/-- Table `sm4_t0` as built by the final loop of `sm4_init_tables`:
`t = sm4_sbox[i]; t = sm4_l(t << 24); sm4_t0[i] = t`. -/
def sm4_t0 (i : Nat) : Nat := sm4_l (sboxAt i <<< 24)

/-- Table `sm4_t1[i] = sm4_rotl(t, 8)` from `sm4_init_tables`. -/
def sm4_t1 (i : Nat) : Nat := rotl32 (sm4_t0 i) 8

/-- Table `sm4_t2[i] = sm4_rotl(t, 16)` from `sm4_init_tables`. -/
def sm4_t2 (i : Nat) : Nat := rotl32 (sm4_t0 i) 16

/-- Table `sm4_t3[i] = sm4_rotl(t, 24)` from `sm4_init_tables`. -/
def sm4_t3 (i : Nat) : Nat := rotl32 (sm4_t0 i) 24

/-- The table-driven T transformation `sm4_t_optimized` of `sm4_optimized.c`. -/
def sm4_t_optimized (x : Nat) : Nat :=
  sm4_t0 ((x >>> 24) % 256) ^^^ sm4_t1 ((x >>> 16) % 256) ^^^
    sm4_t2 ((x >>> 8) % 256) ^^^ sm4_t3 (x % 256)

/-- Modelled from the spec: the direct T transformation of the reference
implementation, `L(S(x))` — byte-wise S-box substitution followed by the
linear diffusion (the reference `sm4_encrypt_basic` translation unit is
missing from the sources). -/
def sm4_t_ref (x : Nat) : Nat := sm4_l (sm4_tau x)

/-- Modelled from the spec: the system constant `FK` (declared in `sm4.h`;
its defining file is missing from the sources). -/
def sm4_fk : List Nat := [0xa3b1bac6, 0x56aa3350, 0x677d9197, 0xb27022dc]

/-- Modelled from the spec: the 32-entry round-constant table `CK`
(declared in `sm4.h`; its defining file is missing from the sources). -/
def sm4_ck : List Nat :=
  [0x00070e15, 0x1c232a31, 0x383f464d, 0x545b6269,
   0x70777e85, 0x8c939aa1, 0xa8afb6bd, 0xc4cbd2d9,
   0xe0e7eef5, 0xfc030a11, 0x181f262d, 0x343b4249,
   0x50575e65, 0x6c737a81, 0x888f969d, 0xa4abb2b9,
   0xc0c7ced5, 0xdce3eaf1, 0xf8ff060d, 0x141b2229,
   0x30373e45, 0x4c535a61, 0x686f767d, 0x848b9299,
   0xa0a7aeb5, 0xbcc3cad1, 0xd8dfe6ed, 0xf4fb0209,
   0x10171e25, 0x2c333a41, 0x484f565d, 0x646b7279]

/-- Big-endian load of word `i` of a byte buffer, as the C loops
`x[i] = (in[4i] << 24) | (in[4i+1] << 16) | (in[4i+2] << 8) | in[4i+3]` do. -/
def load32 (bs : List Byte) (i : Nat) : Nat :=
  loadB (bs.getD (4 * i) 0) (bs.getD (4 * i + 1) 0) (bs.getD (4 * i + 2) 0)
    (bs.getD (4 * i + 3) 0)

/-- One iteration of the key-schedule loop of `sm4_setkey_enc_optimized`:
the four-word state and the list of emitted round keys. -/
def sm4_keyStep (s : (Nat × Nat × Nat × Nat) × List Nat) (i : Nat) :
    (Nat × Nat × Nat × Nat) × List Nat :=
  let m := s.1
  let t := sm4_l_prime (sm4_tau (m.2.1 ^^^ m.2.2.1 ^^^ m.2.2.2 ^^^ sm4_ck.getD i 0))
  let rk := m.1 ^^^ t
  ((m.2.1, m.2.2.1, m.2.2.2, rk), s.2 ++ [rk])

/-- The encryption key schedule `sm4_setkey_enc_optimized` (also reachable
as `sm4_setkey_enc_opt`): load the key big-endian, XOR with `FK`, then run
32 rounds of the schedule, emitting one round key per round. -/
def sm4_setkey_enc_optimized (key : List Byte) : List Nat :=
  let k0 := load32 key 0 ^^^ sm4_fk.getD 0 0
  let k1 := load32 key 1 ^^^ sm4_fk.getD 1 0
  let k2 := load32 key 2 ^^^ sm4_fk.getD 2 0
  let k3 := load32 key 3 ^^^ sm4_fk.getD 3 0
  ((List.range 32).foldl sm4_keyStep ((k0, k1, k2, k3), [])).2

/-- The decryption key schedule `sm4_setkey_dec_opt`: the encryption round
keys in reverse order. -/
def sm4_setkey_dec_opt (key : List Byte) : List Nat :=
  (sm4_setkey_enc_optimized key).reverse

/-- One round of `sm4_encrypt_optimized`:
`x0 ^= T(x1 ^ x2 ^ x3 ^ rk)`, then rotate the four words. -/
def sm4_round (x : Nat × Nat × Nat × Nat) (rk : Nat) : Nat × Nat × Nat × Nat :=
  (x.2.1, x.2.2.1, x.2.2.2,
    x.1 ^^^ sm4_t_optimized (x.2.1 ^^^ x.2.2.1 ^^^ x.2.2.2 ^^^ rk))

/-- Block encryption `sm4_encrypt_optimized`: load four big-endian words,
run the 32 rounds over the given round keys, reverse the word order and
store big-endian. -/
def sm4_encrypt_optimized (rks : List Nat) (input : List Byte) : List Byte :=
  let x := rks.foldl sm4_round (load32 input 0, load32 input 1, load32 input 2, load32 input 3)
  storeW32 x.2.2.2 ++ storeW32 x.2.2.1 ++ storeW32 x.2.1 ++ storeW32 x.1

/-- Block decryption `sm4_decrypt_optimized` is literally the same function
run with the (reversed) decryption round keys. -/
def sm4_decrypt_optimized (rks : List Nat) (input : List Byte) : List Byte :=
  sm4_encrypt_optimized rks input

/-- Modelled from the spec: one round of the reference block encryption
(`sm4_encrypt_basic`, whose translation unit is missing from the sources),
which uses the direct `L(S(x))` transformation in place of the tables. -/
def sm4_round_ref (x : Nat × Nat × Nat × Nat) (rk : Nat) : Nat × Nat × Nat × Nat :=
  (x.2.1, x.2.2.1, x.2.2.2,
    x.1 ^^^ sm4_t_ref (x.2.1 ^^^ x.2.2.1 ^^^ x.2.2.2 ^^^ rk))

/-- Modelled from the spec: the reference block encryption
(`sm4_encrypt_basic`, whose translation unit is missing from the sources). -/
def sm4_encrypt_ref (rks : List Nat) (input : List Byte) : List Byte :=
  let x := rks.foldl sm4_round_ref (load32 input 0, load32 input 1, load32 input 2, load32 input 3)
  storeW32 x.2.2.2 ++ storeW32 x.2.2.1 ++ storeW32 x.2.1 ++ storeW32 x.1

/-- The standard SM4 test vector quoted in the spec: key and plaintext. -/
def sm4_std_key : List Byte :=
  [0x01, 0x23, 0x45, 0x67, 0x89, 0xAB, 0xCD, 0xEF,
   0xFE, 0xDC, 0xBA, 0x98, 0x76, 0x54, 0x32, 0x10]

/-- The expected standard ciphertext for `sm4_std_key` encrypting itself. -/
def sm4_std_ct : List Byte :=
  [0x68, 0x1E, 0xDF, 0x34, 0xD2, 0x06, 0x96, 0x5E,
   0x86, 0xB3, 0xE9, 0x4F, 0x53, 0x6E, 0x42, 0x46]

/-! ### Bounds for the SM4 transformations -/

theorem getD_lt_of_forall {l : List Nat} {c d : Nat} (hl : ∀ x ∈ l, x < c) (hd : d < c)
    (i : Nat) : l.getD i d < c := by
  induction l generalizing i with
  | nil => simpa [List.getD_nil] using hd
  | cons a t ih =>
    cases i with
    | zero => simpa [List.getD_cons_zero] using hl a (by simp)
    | succ n =>
      rw [List.getD_cons_succ]
      exact ih (fun x hx => hl x (by simp [hx])) n

set_option maxRecDepth 10000 in
theorem sboxAt_lt (i : Nat) : sboxAt i < 256 :=
  getD_lt_of_forall (by decide) (by norm_num) i

theorem shiftLeft_lt32 {v : Nat} (hv : v < 256) (s : Nat) (h : s + 8 ≤ 32) :
    v <<< s < 2 ^ 32 := by
  rw [Nat.shiftLeft_eq]
  calc v * 2 ^ s < 2 ^ 8 * 2 ^ s := by
        exact mul_lt_mul_of_pos_right (by omega) (by positivity)
    _ = 2 ^ (8 + s) := by rw [Nat.pow_add]
    _ ≤ 2 ^ 32 := Nat.pow_le_pow_right (by omega) (by omega)

theorem sm4_l_lt {b : Nat} (hb : b < 2 ^ 32) : sm4_l b < 2 ^ 32 := by
  unfold sm4_l
  exact Nat.xor_lt_two_pow
    (Nat.xor_lt_two_pow (Nat.xor_lt_two_pow (Nat.xor_lt_two_pow hb (rotl32_lt _ _))
      (rotl32_lt _ _)) (rotl32_lt _ _)) (rotl32_lt _ _)

theorem sm4_t0_lt (i : Nat) : sm4_t0 i < 2 ^ 32 :=
  sm4_l_lt (shiftLeft_lt32 (sboxAt_lt i) 24 (by omega))

theorem sm4_t_optimized_lt (x : Nat) : sm4_t_optimized x < 2 ^ 32 := by
  unfold sm4_t_optimized sm4_t1 sm4_t2 sm4_t3
  exact Nat.xor_lt_two_pow
    (Nat.xor_lt_two_pow (Nat.xor_lt_two_pow (sm4_t0_lt _) (rotl32_lt _ _))
      (rotl32_lt _ _)) (rotl32_lt _ _)

/-! ### The SM4 round structure inverts under a reversed key schedule -/

/-- Word-order reversal of the four-word cipher state, the final swap of
`sm4_encrypt_optimized`. -/
def rev4 (x : Nat × Nat × Nat × Nat) : Nat × Nat × Nat × Nat :=
  (x.2.2.2, x.2.2.1, x.2.1, x.1)

theorem sm4_round_inv (x : Nat × Nat × Nat × Nat) (rk : Nat) :
    sm4_round (rev4 (sm4_round x rk)) rk = rev4 x := by
  obtain ⟨a, b, c, d⟩ := x
  simp only [sm4_round, rev4]
  refine Prod.ext rfl (Prod.ext rfl (Prod.ext rfl ?_))
  have hc : d ^^^ c ^^^ b ^^^ rk = b ^^^ c ^^^ d ^^^ rk := by
    rw [Nat.xor_comm d c, Nat.xor_assoc c d b]
    rw [Nat.xor_comm d b, ← Nat.xor_assoc c b d, Nat.xor_comm c b]
  simp only [hc]
  rw [Nat.xor_assoc, Nat.xor_self, Nat.xor_zero]

theorem sm4_foldl_rev (rks : List Nat) (s : Nat × Nat × Nat × Nat) :
    rks.reverse.foldl sm4_round (rev4 (rks.foldl sm4_round s)) = rev4 s := by
  induction rks generalizing s with
  | nil => rfl
  | cons rk rest ih =>
    simp only [List.reverse_cons, List.foldl_append, List.foldl_cons, List.foldl_nil]
    rw [ih (sm4_round s rk), sm4_round_inv]

theorem sm4_foldl_lt (rks : List Nat) (s : Nat × Nat × Nat × Nat)
    (hs : s.1 < 2 ^ 32 ∧ s.2.1 < 2 ^ 32 ∧ s.2.2.1 < 2 ^ 32 ∧ s.2.2.2 < 2 ^ 32) :
    (rks.foldl sm4_round s).1 < 2 ^ 32 ∧ (rks.foldl sm4_round s).2.1 < 2 ^ 32 ∧
      (rks.foldl sm4_round s).2.2.1 < 2 ^ 32 ∧ (rks.foldl sm4_round s).2.2.2 < 2 ^ 32 := by
  induction rks generalizing s with
  | nil => exact hs
  | cons rk rest ih =>
    refine ih (sm4_round s rk) ?_
    obtain ⟨h1, h2, h3, h4⟩ := hs
    exact ⟨h2, h3, h4, Nat.xor_lt_two_pow h1 (sm4_t_optimized_lt _)⟩

set_option maxRecDepth 1000000 in
/-- C1, evidence (code bug): the table-driven T transformation disagrees with
the direct composition `L(S(x))` — the tables `sm4_t1` and `sm4_t3` are
attached to the wrong input bytes — and consequently the table-driven block
encryption fails the published standard test vector that the reference
(direct S+L) computation reproduces. -/
theorem sm4_t_optimized_ne_ref :
    sm4_t_optimized 0x00010000 = 0x1c424205 ∧
    sm4_t_ref 0x00010000 = 0x42051c42 ∧
    sm4_t_optimized 0x00010000 ≠ sm4_t_ref 0x00010000 ∧
    sm4_encrypt_ref (sm4_setkey_enc_optimized sm4_std_key) sm4_std_key = sm4_std_ct ∧
    sm4_encrypt_optimized (sm4_setkey_enc_optimized sm4_std_key) sm4_std_key ≠ sm4_std_ct := by
  refine ⟨by decide, by decide, by decide, by decide, by decide⟩

theorem exists_cons_of_length_eq {α : Type} {l : List α} {n : Nat}
    (h : l.length = n + 1) : ∃ a t, l = a :: t ∧ t.length = n := by
  cases l with
  | nil => simp at h
  | cons a t => exact ⟨a, t, rfl, by simpa using h⟩

/-- C8: for every 16-byte key and plaintext, decrypting with the reversed
round-key schedule (`sm4_setkey_dec_opt`) inverts `sm4_encrypt_optimized`. -/
theorem sm4_optimized_roundtrip (key input : List Byte) (h : input.length = 16) :
    sm4_decrypt_optimized (sm4_setkey_dec_opt key)
      (sm4_encrypt_optimized (sm4_setkey_enc_optimized key) input) = input := by
  obtain ⟨b0, t0, he0, hx0⟩ := exists_cons_of_length_eq (n := 15) h
  subst he0
  obtain ⟨b1, t1, he1, hx1⟩ := exists_cons_of_length_eq (n := 14) hx0
  subst he1
  obtain ⟨b2, t2, he2, hx2⟩ := exists_cons_of_length_eq (n := 13) hx1
  subst he2
  obtain ⟨b3, t3, he3, hx3⟩ := exists_cons_of_length_eq (n := 12) hx2
  subst he3
  obtain ⟨b4, t4, he4, hx4⟩ := exists_cons_of_length_eq (n := 11) hx3
  subst he4
  obtain ⟨b5, t5, he5, hx5⟩ := exists_cons_of_length_eq (n := 10) hx4
  subst he5
  obtain ⟨b6, t6, he6, hx6⟩ := exists_cons_of_length_eq (n := 9) hx5
  subst he6
  obtain ⟨b7, t7, he7, hx7⟩ := exists_cons_of_length_eq (n := 8) hx6
  subst he7
  obtain ⟨b8, t8, he8, hx8⟩ := exists_cons_of_length_eq (n := 7) hx7
  subst he8
  obtain ⟨b9, t9, he9, hx9⟩ := exists_cons_of_length_eq (n := 6) hx8
  subst he9
  obtain ⟨b10, t10, he10, hx10⟩ := exists_cons_of_length_eq (n := 5) hx9
  subst he10
  obtain ⟨b11, t11, he11, hx11⟩ := exists_cons_of_length_eq (n := 4) hx10
  subst he11
  obtain ⟨b12, t12, he12, hx12⟩ := exists_cons_of_length_eq (n := 3) hx11
  subst he12
  obtain ⟨b13, t13, he13, hx13⟩ := exists_cons_of_length_eq (n := 2) hx12
  subst he13
  obtain ⟨b14, t14, he14, hx14⟩ := exists_cons_of_length_eq (n := 1) hx13
  subst he14
  obtain ⟨b15, t15, he15, hx15⟩ := exists_cons_of_length_eq (n := 0) hx14
  subst he15
  obtain rfl : t15 = [] := List.eq_nil_of_length_eq_zero hx15
  set rks := sm4_setkey_enc_optimized key with hrks
  set s : Nat × Nat × Nat × Nat :=
    (loadB b0 b1 b2 b3, loadB b4 b5 b6 b7, loadB b8 b9 b10 b11, loadB b12 b13 b14 b15) with hs
  have hload : (load32 [b0, b1, b2, b3, b4, b5, b6, b7, b8, b9, b10, b11, b12, b13,
      b14, b15] 0,
      load32 [b0, b1, b2, b3, b4, b5, b6, b7, b8, b9, b10, b11, b12, b13, b14, b15] 1,
      load32 [b0, b1, b2, b3, b4, b5, b6, b7, b8, b9, b10, b11, b12, b13, b14, b15] 2,
      load32 [b0, b1, b2, b3, b4, b5, b6, b7, b8, b9, b10, b11, b12, b13, b14, b15] 3) = s := by
    rw [hs]
    rfl
  obtain ⟨ha, hb, hc, hd⟩ := sm4_foldl_lt rks s ⟨loadB_lt _ _ _ _, loadB_lt _ _ _ _,
    loadB_lt _ _ _ _, loadB_lt _ _ _ _⟩
  simp only [sm4_decrypt_optimized, sm4_encrypt_optimized, sm4_setkey_dec_opt, ← hrks]
  rw [hload]
  set f := rks.foldl sm4_round s with hf
  have hct : storeW32 f.2.2.2 ++ storeW32 f.2.2.1 ++ storeW32 f.2.1 ++ storeW32 f.1 =
      [byteOf (f.2.2.2 >>> 24), byteOf (f.2.2.2 >>> 16),
      byteOf (f.2.2.2 >>> 8), byteOf f.2.2.2, byteOf (f.2.2.1 >>> 24), byteOf (f.2.2.1 >>> 16),
      byteOf (f.2.2.1 >>> 8), byteOf f.2.2.1, byteOf (f.2.1 >>> 24), byteOf (f.2.1 >>> 16),
      byteOf (f.2.1 >>> 8), byteOf f.2.1, byteOf (f.1 >>> 24), byteOf (f.1 >>> 16),
      byteOf (f.1 >>> 8), byteOf f.1] := by
    simp [storeW32]
  rw [hct]
  have hl0 : (load32 [byteOf (f.2.2.2 >>> 24), byteOf (f.2.2.2 >>> 16),
      byteOf (f.2.2.2 >>> 8), byteOf f.2.2.2, byteOf (f.2.2.1 >>> 24), byteOf (f.2.2.1 >>> 16),
      byteOf (f.2.2.1 >>> 8), byteOf f.2.2.1, byteOf (f.2.1 >>> 24), byteOf (f.2.1 >>> 16),
      byteOf (f.2.1 >>> 8), byteOf f.2.1, byteOf (f.1 >>> 24), byteOf (f.1 >>> 16),
      byteOf (f.1 >>> 8), byteOf f.1] 0,
      load32 [byteOf (f.2.2.2 >>> 24), byteOf (f.2.2.2 >>> 16),
      byteOf (f.2.2.2 >>> 8), byteOf f.2.2.2, byteOf (f.2.2.1 >>> 24), byteOf (f.2.2.1 >>> 16),
      byteOf (f.2.2.1 >>> 8), byteOf f.2.2.1, byteOf (f.2.1 >>> 24), byteOf (f.2.1 >>> 16),
      byteOf (f.2.1 >>> 8), byteOf f.2.1, byteOf (f.1 >>> 24), byteOf (f.1 >>> 16),
      byteOf (f.1 >>> 8), byteOf f.1] 1,
      load32 [byteOf (f.2.2.2 >>> 24), byteOf (f.2.2.2 >>> 16),
      byteOf (f.2.2.2 >>> 8), byteOf f.2.2.2, byteOf (f.2.2.1 >>> 24), byteOf (f.2.2.1 >>> 16),
      byteOf (f.2.2.1 >>> 8), byteOf f.2.2.1, byteOf (f.2.1 >>> 24), byteOf (f.2.1 >>> 16),
      byteOf (f.2.1 >>> 8), byteOf f.2.1, byteOf (f.1 >>> 24), byteOf (f.1 >>> 16),
      byteOf (f.1 >>> 8), byteOf f.1] 2,
      load32 [byteOf (f.2.2.2 >>> 24), byteOf (f.2.2.2 >>> 16),
      byteOf (f.2.2.2 >>> 8), byteOf f.2.2.2, byteOf (f.2.2.1 >>> 24), byteOf (f.2.2.1 >>> 16),
      byteOf (f.2.2.1 >>> 8), byteOf f.2.2.1, byteOf (f.2.1 >>> 24), byteOf (f.2.1 >>> 16),
      byteOf (f.2.1 >>> 8), byteOf f.2.1, byteOf (f.1 >>> 24), byteOf (f.1 >>> 16),
      byteOf (f.1 >>> 8), byteOf f.1] 3) = rev4 f := by
    show (loadB (byteOf (f.2.2.2 >>> 24)) (byteOf (f.2.2.2 >>> 16)) (byteOf (f.2.2.2 >>> 8))
        (byteOf f.2.2.2),
      loadB (byteOf (f.2.2.1 >>> 24)) (byteOf (f.2.2.1 >>> 16)) (byteOf (f.2.2.1 >>> 8))
        (byteOf f.2.2.1),
      loadB (byteOf (f.2.1 >>> 24)) (byteOf (f.2.1 >>> 16)) (byteOf (f.2.1 >>> 8))
        (byteOf f.2.1),
      loadB (byteOf (f.1 >>> 24)) (byteOf (f.1 >>> 16)) (byteOf (f.1 >>> 8))
        (byteOf f.1)) = rev4 f
    rw [loadB_storeW32 _ hd, loadB_storeW32 _ hc, loadB_storeW32 _ hb, loadB_storeW32 _ ha]
    rfl
  rw [hl0, hf, sm4_foldl_rev rks s, hs]
  show storeW32 (loadB b0 b1 b2 b3) ++ storeW32 (loadB b4 b5 b6 b7) ++
    storeW32 (loadB b8 b9 b10 b11) ++ storeW32 (loadB b12 b13 b14 b15) = _
  rw [storeW32_loadB, storeW32_loadB, storeW32_loadB, storeW32_loadB]
  rfl

/-- Witness for C8 at the standard test-vector key and plaintext. -/
theorem sm4_optimized_roundtrip_witness :
    sm4_decrypt_optimized (sm4_setkey_dec_opt sm4_std_key)
      (sm4_encrypt_optimized (sm4_setkey_enc_optimized sm4_std_key) sm4_std_key) =
      sm4_std_key :=
  sm4_optimized_roundtrip sm4_std_key sm4_std_key (by decide)

/-! ## SM3 hash (project4, `sm3_basic.c`)

The compression functions, the streaming context, finalization and the
length-extension attack of `length_extension.c` are embedded below.  The C
context's 64-byte buffer array is modelled by the list of its first
`count % 64` bytes — exactly the bytes the C code ever reads from it. -/

/-- The permutation `P0(x) = x ^ rotl(x,9) ^ rotl(x,17)` from `sm3.h`. -/
def sm3_p0 (x : Nat) : Nat := x ^^^ rotl32 x 9 ^^^ rotl32 x 17

/-- The permutation `P1(x) = x ^ rotl(x,15) ^ rotl(x,23)` from `sm3.h`. -/
def sm3_p1 (x : Nat) : Nat := x ^^^ rotl32 x 15 ^^^ rotl32 x 23

/-- Bitwise complement of a 32-bit word, the C `~x` on `uint32_t`. -/
def not32 (x : Nat) : Nat := (2 ^ 32 - 1) - x % 2 ^ 32

/-- The boolean function `FF` from `sm3.h`: XOR for rounds 0-15, majority
for rounds 16-63. -/
def sm3_ff (x y z j : Nat) : Nat :=
  if j < 16 then x ^^^ y ^^^ z else (x &&& y) ||| (x &&& z) ||| (y &&& z)

/-- The boolean function `GG` from `sm3.h`: XOR for rounds 0-15, choice for
rounds 16-63. -/
def sm3_gg (x y z j : Nat) : Nat :=
  if j < 16 then x ^^^ y ^^^ z else (x &&& y) ||| (not32 x &&& z)

/-- The round constant `T(j)` from `sm3.h`. -/
def sm3_t_const (j : Nat) : Nat := if j < 16 then 0x79CC4519 else 0x7A879D8A

/-- One iteration of the message-expansion loop of `sm3_compress_basic`:
`W[j] = P1(W[j-16] ^ W[j-9] ^ rotl(W[j-3],15)) ^ rotl(W[j-13],7) ^ W[j-6]`. -/
def sm3_wStep (a : Array Nat) (j : Nat) : Array Nat :=
  a.push (sm3_p1 (a.getD (j - 16) 0 ^^^ a.getD (j - 9) 0 ^^^ rotl32 (a.getD (j - 3) 0) 15) ^^^
    rotl32 (a.getD (j - 13) 0) 7 ^^^ a.getD (j - 6) 0)

/-- The message expansion of `sm3_compress_basic`: 16 big-endian loads, then
52 single-step iterations filling `W[16..67]`. -/
def sm3_expandW (block : List Byte) : Array Nat :=
  let a := (List.range 16).foldl (fun a j => a.push (load32 block j)) #[]
  (List.range' 16 52).foldl sm3_wStep a

/-- One iteration of the unrolled message-expansion loop of
`sm3_compress_optimized`: four entries `W[j..j+3]` are produced per pass,
with the literal index offsets of the C source. -/
def sm3_wStepOpt (a : Array Nat) (j : Nat) : Array Nat :=
  let a := a.push
    (sm3_p1 (a.getD (j - 16) 0 ^^^ a.getD (j - 9) 0 ^^^ rotl32 (a.getD (j - 3) 0) 15) ^^^
      rotl32 (a.getD (j - 13) 0) 7 ^^^ a.getD (j - 6) 0)
  let a := a.push
    (sm3_p1 (a.getD (j - 15) 0 ^^^ a.getD (j - 8) 0 ^^^ rotl32 (a.getD (j - 2) 0) 15) ^^^
      rotl32 (a.getD (j - 12) 0) 7 ^^^ a.getD (j - 5) 0)
  let a := a.push
    (sm3_p1 (a.getD (j - 14) 0 ^^^ a.getD (j - 7) 0 ^^^ rotl32 (a.getD (j - 1) 0) 15) ^^^
      rotl32 (a.getD (j - 11) 0) 7 ^^^ a.getD (j - 4) 0)
  let a := a.push
    (sm3_p1 (a.getD (j - 13) 0 ^^^ a.getD (j - 6) 0 ^^^ rotl32 (a.getD j 0) 15) ^^^
      rotl32 (a.getD (j - 10) 0) 7 ^^^ a.getD (j - 3) 0)
  a

/-- The unrolled message expansion of `sm3_compress_optimized`:
`for (j = 16; j < 68; j += 4)`, thirteen four-entry passes. -/
def sm3_expandW_opt (block : List Byte) : Array Nat :=
  let a := (List.range 16).foldl (fun a j => a.push (load32 block j)) #[]
  (List.range 13).foldl (fun a k => sm3_wStepOpt a (16 + 4 * k)) a

/-- The eight working registers `A..H` of the compression loop. -/
abbrev Regs8 := Nat × Nat × Nat × Nat × Nat × Nat × Nat × Nat

/-- One round of the main loop of `sm3_compress_basic`, for round index `j`. -/
def sm3_round1 (W W1 : Array Nat) (r : Regs8) (j : Nat) : Regs8 :=
  let A := r.1; let B := r.2.1; let C := r.2.2.1; let D := r.2.2.2.1
  let E := r.2.2.2.2.1; let F := r.2.2.2.2.2.1; let G := r.2.2.2.2.2.2.1
  let H := r.2.2.2.2.2.2.2
  let SS1 := rotl32 (add32 (add32 (rotl32 A 12) E) (rotl32 (sm3_t_const j) (j % 32))) 7
  let SS2 := SS1 ^^^ rotl32 A 12
  let TT1 := add32 (add32 (add32 (sm3_ff A B C j) D) SS2) (W1.getD j 0)
  let TT2 := add32 (add32 (add32 (sm3_gg E F G j) H) SS1) (W.getD j 0)
  (TT1, A, rotl32 B 9, C, sm3_p0 TT2, E, rotl32 F 19, G)

/-- One round of the first (XOR, constant `0x79CC4519`) loop of
`sm3_compress_optimized`, with the boolean functions inlined. -/
def sm3_roundOpt1 (W W1 : Array Nat) (r : Regs8) (j : Nat) : Regs8 :=
  let A := r.1; let B := r.2.1; let C := r.2.2.1; let D := r.2.2.2.1
  let E := r.2.2.2.2.1; let F := r.2.2.2.2.2.1; let G := r.2.2.2.2.2.2.1
  let H := r.2.2.2.2.2.2.2
  let SS1 := rotl32 (add32 (add32 (rotl32 A 12) E) (rotl32 0x79CC4519 j)) 7
  let SS2 := SS1 ^^^ rotl32 A 12
  let TT1 := add32 (add32 (add32 (A ^^^ B ^^^ C) D) SS2) (W1.getD j 0)
  let TT2 := add32 (add32 (add32 (E ^^^ F ^^^ G) H) SS1) (W.getD j 0)
  (TT1, A, rotl32 B 9, C, sm3_p0 TT2, E, rotl32 F 19, G)

/-- One round of the second (majority/choice, constant `0x7A879D8A`) loop of
`sm3_compress_optimized`. -/
def sm3_roundOpt2 (W W1 : Array Nat) (r : Regs8) (j : Nat) : Regs8 :=
  let A := r.1; let B := r.2.1; let C := r.2.2.1; let D := r.2.2.2.1
  let E := r.2.2.2.2.1; let F := r.2.2.2.2.2.1; let G := r.2.2.2.2.2.2.1
  let H := r.2.2.2.2.2.2.2
  let SS1 := rotl32 (add32 (add32 (rotl32 A 12) E) (rotl32 0x7A879D8A (j % 32))) 7
  let SS2 := SS1 ^^^ rotl32 A 12
  let TT1 := add32 (add32 (add32 ((A &&& B) ||| (A &&& C) ||| (B &&& C)) D) SS2) (W1.getD j 0)
  let TT2 := add32 (add32 (add32 ((E &&& F) ||| (not32 E &&& G)) H) SS1) (W.getD j 0)
  (TT1, A, rotl32 B 9, C, sm3_p0 TT2, E, rotl32 F 19, G)

/-- The auxiliary words `W1[j] = W[j] ^ W[j+4]`. -/
def sm3_w1 (W : Array Nat) : Array Nat :=
  (List.range 64).foldl (fun a j => a.push (W.getD j 0 ^^^ W.getD (j + 4) 0)) #[]

/-- Initial registers loaded from the state words. -/
def sm3_loadRegs (state : List Nat) : Regs8 :=
  (state.getD 0 0, state.getD 1 0, state.getD 2 0, state.getD 3 0,
   state.getD 4 0, state.getD 5 0, state.getD 6 0, state.getD 7 0)

/-- Feed-forward: XOR the final registers into the state words. -/
def sm3_feedForward (state : List Nat) (r : Regs8) : List Nat :=
  [state.getD 0 0 ^^^ r.1, state.getD 1 0 ^^^ r.2.1, state.getD 2 0 ^^^ r.2.2.1,
   state.getD 3 0 ^^^ r.2.2.2.1, state.getD 4 0 ^^^ r.2.2.2.2.1,
   state.getD 5 0 ^^^ r.2.2.2.2.2.1, state.getD 6 0 ^^^ r.2.2.2.2.2.2.1,
   state.getD 7 0 ^^^ r.2.2.2.2.2.2.2]

/-- The reference compression function `sm3_compress_basic`. -/
def sm3_compress_basic (state : List Nat) (block : List Byte) : List Nat :=
  let W := sm3_expandW block
  let W1 := sm3_w1 W
  sm3_feedForward state ((List.range 64).foldl (sm3_round1 W W1) (sm3_loadRegs state))

/-- The optimized compression function `sm3_compress_optimized`: unrolled
expansion and the round loop split at `j = 16` with inlined boolean
functions and constants. -/
def sm3_compress_optimized (state : List Nat) (block : List Byte) : List Nat :=
  let W := sm3_expandW_opt block
  let W1 := sm3_w1 W
  let r := (List.range 16).foldl (sm3_roundOpt1 W W1) (sm3_loadRegs state)
  sm3_feedForward state ((List.range' 16 48).foldl (sm3_roundOpt2 W W1) r)

/-! ### C7: the optimized compression equals the reference compression -/

theorem sm3_wStepOpt_eq (a : Array Nat) (j : Nat) :
    sm3_wStepOpt a j =
      sm3_wStep (sm3_wStep (sm3_wStep (sm3_wStep a j) (j + 1)) (j + 2)) (j + 3) := by
  simp only [sm3_wStepOpt, sm3_wStep,
    show j + 1 - 16 = j - 15 by omega, show j + 1 - 9 = j - 8 by omega,
    show j + 1 - 3 = j - 2 by omega, show j + 1 - 13 = j - 12 by omega,
    show j + 1 - 6 = j - 5 by omega,
    show j + 2 - 16 = j - 14 by omega, show j + 2 - 9 = j - 7 by omega,
    show j + 2 - 3 = j - 1 by omega, show j + 2 - 13 = j - 11 by omega,
    show j + 2 - 6 = j - 4 by omega,
    show j + 3 - 16 = j - 13 by omega, show j + 3 - 9 = j - 6 by omega,
    show j + 3 - 3 = j by omega, show j + 3 - 13 = j - 10 by omega,
    show j + 3 - 6 = j - 3 by omega]

theorem sm3_wChunk (m : Nat) : ∀ (a : Array Nat) (j : Nat),
    (List.range' j (4 * m)).foldl sm3_wStep a =
      (List.range m).foldl (fun a k => sm3_wStepOpt a (j + 4 * k)) a := by
  induction m with
  | zero =>
    intro a j
    rw [Nat.mul_zero]
    simp only [List.range'_zero, List.range_zero, List.foldl_nil]
  | succ m ih =>
    intro a j
    have h4 : 4 * (m + 1) = 4 * m + 1 + 1 + 1 + 1 := by omega
    rw [h4, List.range'_succ, List.range'_succ, List.range'_succ, List.range'_succ]
    simp only [List.foldl_cons]
    rw [show j + 1 + 1 = j + 2 by omega]
    rw [show j + 2 + 1 = j + 3 by omega]
    rw [show j + 3 + 1 = j + 4 by omega]
    rw [← sm3_wStepOpt_eq a j]
    rw [ih (sm3_wStepOpt a j) (j + 4)]
    rw [List.range_succ_eq_map, List.foldl_cons, List.foldl_map]
    rw [show j + 4 * 0 = j by omega]
    have hfun : (fun (a : Array Nat) (k : Nat) => sm3_wStepOpt a (j + 4 * Nat.succ k)) =
        fun (a : Array Nat) (k : Nat) => sm3_wStepOpt a (j + 4 + 4 * k) := by
      funext a k
      congr 1
      omega
    rw [hfun]

theorem sm3_expandW_opt_eq (block : List Byte) :
    sm3_expandW_opt block = sm3_expandW block := by
  simp only [sm3_expandW_opt, sm3_expandW]
  rw [show (52 : Nat) = 4 * 13 by norm_num, sm3_wChunk 13]

theorem sm3_round1_eq_opt1 (W W1 : Array Nat) (r : Regs8) (j : Nat) (h : j < 16) :
    sm3_round1 W W1 r j = sm3_roundOpt1 W W1 r j := by
  simp only [sm3_round1, sm3_roundOpt1, sm3_ff, sm3_gg, sm3_t_const, if_pos h,
    Nat.mod_eq_of_lt (show j < 32 by omega)]

theorem sm3_round1_eq_opt2 (W W1 : Array Nat) (r : Regs8) (j : Nat) (h : 16 ≤ j) :
    sm3_round1 W W1 r j = sm3_roundOpt2 W W1 r j := by
  simp only [sm3_round1, sm3_roundOpt2, sm3_ff, sm3_gg, sm3_t_const,
    if_neg (Nat.not_lt.mpr h)]

theorem foldl_congr_of_mem {α β : Type} {l : List β} {f g : α → β → α}
    (h : ∀ x ∈ l, ∀ b, f b x = g b x) : ∀ a : α, l.foldl f a = l.foldl g a := by
  induction l with
  | nil => intro a; rfl
  | cons x t ih =>
    intro a
    simp only [List.foldl_cons]
    rw [h x (by simp)]
    exact ih (fun y hy b => h y (by simp [hy]) b) _

theorem sm3_compress_eq_aux (state : List Nat) (block : List Byte) :
    sm3_compress_optimized state block = sm3_compress_basic state block := by
  simp only [sm3_compress_optimized, sm3_compress_basic, sm3_expandW_opt_eq]
  have hfold : (List.range' 16 48).foldl
      (sm3_roundOpt2 (sm3_expandW block) (sm3_w1 (sm3_expandW block)))
      ((List.range 16).foldl (sm3_roundOpt1 (sm3_expandW block) (sm3_w1 (sm3_expandW block)))
        (sm3_loadRegs state)) =
      (List.range 64).foldl (sm3_round1 (sm3_expandW block) (sm3_w1 (sm3_expandW block)))
      (sm3_loadRegs state) := by
    have hsplit : List.range 64 = List.range' 0 16 ++ List.range' 16 48 := by
      rw [List.range'_append_1, List.range_eq_range']
    rw [hsplit, List.foldl_append]
    have h1 : (List.range' 0 16).foldl
        (sm3_round1 (sm3_expandW block) (sm3_w1 (sm3_expandW block))) (sm3_loadRegs state) =
        (List.range 16).foldl
        (sm3_roundOpt1 (sm3_expandW block) (sm3_w1 (sm3_expandW block)))
        (sm3_loadRegs state) := by
      rw [List.range_eq_range']
      refine foldl_congr_of_mem ?_ _
      intro x hx b
      obtain ⟨i, hi, rfl⟩ := List.mem_range'.mp hx
      exact sm3_round1_eq_opt1 _ _ _ _ (by omega)
    rw [h1]
    refine foldl_congr_of_mem ?_ _
    intro x hx b
    obtain ⟨i, hi, rfl⟩ := List.mem_range'.mp hx
    exact (sm3_round1_eq_opt2 _ _ _ _ (by omega)).symm
  rw [hfold]

/-- C7: for every 8-word state and every 64-byte block, the optimized
compression function leaves the state bit-identical to the reference
compression function. -/
theorem sm3_compress_optimized_eq_basic (state : List Nat) (block : List Byte) :
    sm3_compress_optimized state block = sm3_compress_basic state block :=
  sm3_compress_eq_aux state block

/-! ### Streaming SM3: context, update, final (from `sm3_basic.c`) -/

/-- The SM3 context `sm3_ctx_t`: state words, byte counter (a C `uint64_t`,
so kept reduced mod `2^64`), and the partial-block buffer.  The C buffer is
a 64-byte array of which only the first `count % 64` bytes are ever read;
the model keeps exactly those bytes. -/
structure Sm3Ctx where
  state : List Nat
  count : Nat
  buffer : List Byte

/-- The SM3 initialization vector `sm3_iv`. -/
def sm3_iv : List Nat :=
  [0x7380166F, 0x4914B2B9, 0x172442D7, 0xDA8A0600,
   0xA96F30BC, 0x163138AA, 0xE38DEE4D, 0xB0FB0E4E]

/-- `sm3_init`: IV state, zero counter, empty buffer. -/
def sm3_init : Sm3Ctx := ⟨sm3_iv, 0, []⟩

/-- The `while (len >= 64)` loop of `sm3_update`, with the remaining byte
count (which strictly decreases every iteration) as structural fuel:
compress successive 64-byte blocks, returning the new state and the
remaining tail. -/
def sm3_compressBlocksGo : Nat → List Nat → List Byte → List Nat × List Byte
  | 0, st, d => (st, d)
  | fuel+1, st, d =>
    if 64 ≤ d.length then
      sm3_compressBlocksGo fuel (sm3_compress_optimized st (d.take 64)) (d.drop 64)
    else (st, d)

/-- The loop entered with fuel equal to the data length. -/
def sm3_compressBlocks (st : List Nat) (data : List Byte) : List Nat × List Byte :=
  sm3_compressBlocksGo data.length st data

/-- `sm3_update`: fill and flush the partial buffer, compress full blocks,
buffer the remainder.  The C code computes `left` from the old counter and
compresses with `sm3_compress_optimized`. -/
def sm3_update (ctx : Sm3Ctx) (data : List Byte) : Sm3Ctx :=
  let left := ctx.count % 64
  let fill := 64 - left
  let count' := (ctx.count + data.length) % 2 ^ 64
  if left ≠ 0 ∧ fill ≤ data.length then
    let st1 := sm3_compress_optimized ctx.state (ctx.buffer ++ data.take fill)
    let r := sm3_compressBlocks st1 (data.drop fill)
    ⟨r.1, count', r.2⟩
  else if left = 0 then
    let r := sm3_compressBlocks ctx.state data
    ⟨r.1, count', r.2⟩
  else
    ⟨ctx.state, count', ctx.buffer ++ data⟩

/-- The eight big-endian bytes of the total bit count `count * 8` (a
C `uint64_t` product, hence mod `2^64`), appended by `sm3_final`. -/
def sm3_lenBytes (count : Nat) : List Byte :=
  let totalBits := (count * 8) % 2 ^ 64
  [byteOf (totalBits >>> 56), byteOf (totalBits >>> 48), byteOf (totalBits >>> 40),
   byteOf (totalBits >>> 32), byteOf (totalBits >>> 24), byteOf (totalBits >>> 16),
   byteOf (totalBits >>> 8), byteOf totalBits]

/-- The Merkle-Damgard padding block fed to `sm3_update` by `sm3_final`:
`0x80`, zero fill to 56 mod 64, then the 64-bit big-endian bit length. -/
def sm3_padBlock (count : Nat) : List Byte :=
  let left := count % 64
  let padLen := if left < 56 then 56 - left else 120 - left
  (byteOf 0x80 :: List.replicate (padLen - 1) (0 : Byte)) ++ sm3_lenBytes count

/-- Big-endian serialization of the eight state words, the digest output
loop of `sm3_final`. -/
def sm3_serialize (st : List Nat) : List Byte :=
  ((List.range 8).map (fun i => storeW32 (st.getD i 0))).flatten

/-- `sm3_final`: pad, compress, and serialize the state. -/
def sm3_final (ctx : Sm3Ctx) : List Byte :=
  sm3_serialize (sm3_update ctx (sm3_padBlock ctx.count)).state

/-- One-shot `sm3_hash`. -/
def sm3_hash (data : List Byte) : List Byte := sm3_final (sm3_update sm3_init data)

/-! ### Length-extension attack (from `length_extension.c`) -/

/-- `sm3_padding`: the attacker's replica of the padding for a message of
the given length.  (The C function also fails when the caller's buffer is
too small; the attack passes a 128-byte buffer which always suffices, so
the failure branch is unreachable there.) -/
def sm3_padding (message_len : Nat) : List Byte :=
  let p0 := 64 - (message_len + 9) % 64
  let p1 := if p0 = 64 then 0 else p0
  let padding_len := p1 + 9
  (byteOf 0x80 :: List.replicate (padding_len - 9) (0 : Byte)) ++ sm3_lenBytes message_len

/-- `extract_sm3_state`: parse a digest as eight big-endian state words. -/
def extract_sm3_state (digest : List Byte) : List Nat :=
  (List.range 8).map (load32 digest)

/-- `sm3_continue_from_state`: seed a context with the extracted state and
the padded length of the original message, then update and finalize.  The
C code leaves the context's buffer uninitialized; since the seeded counter
is a multiple of 64 the buffer is never read before being written, so it
is modelled as empty. -/
def sm3_continue_from_state (st : List Nat) (data : List Byte)
    (original_length : Nat) : List Byte :=
  let padded := (original_length + 1 + (64 - (original_length + 9) % 64) % 64 + 8) % 2 ^ 64
  sm3_final (sm3_update ⟨st, padded, []⟩ data)

/-- `sm3_length_extension_attack`: returns the forged suffix
(`padding ++ additional`) and the extended digest. -/
def sm3_length_extension_attack (known_hash : List Byte) (original_length : Nat)
    (additional : List Byte) : List Byte × List Byte :=
  let padding := sm3_padding original_length
  (padding ++ additional,
   sm3_continue_from_state (extract_sm3_state known_hash) additional original_length)

/-! ### C9: the streaming-state invariant -/

theorem sm3_compressBlocksGo_short (fuel : Nat) (st : List Nat) (d : List Byte)
    (h : d.length < 64) : sm3_compressBlocksGo fuel st d = (st, d) := by
  cases fuel with
  | zero => rfl
  | succ n =>
    show (if 64 ≤ d.length then _ else (st, d)) = (st, d)
    rw [if_neg (by omega)]

theorem sm3_compressBlocksGo_irrel : ∀ (f1 f2 : Nat) (st : List Nat) (d : List Byte),
    d.length ≤ f1 → d.length ≤ f2 →
    sm3_compressBlocksGo f1 st d = sm3_compressBlocksGo f2 st d := by
  intro f1
  induction f1 with
  | zero =>
    intro f2 st d h1 h2
    obtain rfl : d = [] := List.eq_nil_of_length_eq_zero (by omega)
    rw [sm3_compressBlocksGo_short 0 _ _ (by simp),
      sm3_compressBlocksGo_short f2 _ _ (by simp)]
  | succ n ih =>
    intro f2 st d h1 h2
    by_cases h64 : 64 ≤ d.length
    · cases f2 with
      | zero => omega
      | succ m =>
        show (if 64 ≤ d.length then _ else _) = (if 64 ≤ d.length then _ else _)
        rw [if_pos h64, if_pos h64]
        exact ih m _ _ (by simp only [List.length_drop]; omega)
          (by simp only [List.length_drop]; omega)
    · rw [sm3_compressBlocksGo_short _ _ _ (by omega),
        sm3_compressBlocksGo_short _ _ _ (by omega)]

theorem sm3_compressBlocks_of_ge (st : List Nat) (d : List Byte) (h : 64 ≤ d.length) :
    sm3_compressBlocks st d =
      sm3_compressBlocks (sm3_compress_optimized st (d.take 64)) (d.drop 64) := by
  obtain ⟨m, hm⟩ : ∃ m, d.length = m + 1 := ⟨d.length - 1, by omega⟩
  show sm3_compressBlocksGo d.length st d = _
  rw [hm]
  show (if 64 ≤ d.length then
      sm3_compressBlocksGo m (sm3_compress_optimized st (d.take 64)) (d.drop 64)
    else (st, d)) = _
  rw [if_pos h]
  exact sm3_compressBlocksGo_irrel m (d.drop 64).length _ _
    (by simp only [List.length_drop]; omega) le_rfl

theorem sm3_compressBlocks_of_lt (st : List Nat) (d : List Byte) (h : d.length < 64) :
    sm3_compressBlocks st d = (st, d) :=
  sm3_compressBlocksGo_short _ _ _ h

theorem sm3_compressBlocks_induction (P : List Nat → List Byte → Prop)
    (h1 : ∀ st d, 64 ≤ d.length →
      P (sm3_compress_optimized st (d.take 64)) (d.drop 64) → P st d)
    (h2 : ∀ st d, d.length < 64 → P st d) : ∀ st d, P st d := by
  have aux : ∀ (n : Nat) st (d : List Byte), d.length ≤ n → P st d := by
    intro n
    induction n with
    | zero => intro st d h; exact h2 st d (by omega)
    | succ n ih =>
      intro st d h
      by_cases h64 : 64 ≤ d.length
      · exact h1 st d h64 (ih _ _ (by simp only [List.length_drop]; omega))
      · exact h2 st d (by omega)
  exact fun st d => aux d.length st d le_rfl

theorem sm3_compressBlocks_snd_len (st : List Nat) (d : List Byte) :
    (sm3_compressBlocks st d).2.length = d.length % 64 := by
  refine sm3_compressBlocks_induction
    (fun st d => (sm3_compressBlocks st d).2.length = d.length % 64) ?_ ?_ st d
  · intro st d h ih
    rw [sm3_compressBlocks_of_ge st d h, ih]
    simp only [List.length_drop]
    omega
  · intro st d h
    rw [sm3_compressBlocks_of_lt st d (by omega)]
    show d.length = d.length % 64
    omega

theorem sm3_compressBlocks_append (st : List Nat) (a b : List Byte) :
    sm3_compressBlocks st (a ++ b) =
      sm3_compressBlocks (sm3_compressBlocks st a).1 ((sm3_compressBlocks st a).2 ++ b) := by
  refine sm3_compressBlocks_induction
    (fun st a => sm3_compressBlocks st (a ++ b) =
      sm3_compressBlocks (sm3_compressBlocks st a).1 ((sm3_compressBlocks st a).2 ++ b))
    ?_ ?_ st a
  · intro st a h ih
    rw [sm3_compressBlocks_of_ge st a h]
    rw [sm3_compressBlocks_of_ge st (a ++ b) (by simp only [List.length_append]; omega)]
    rw [List.take_append_eq_append_take, Nat.sub_eq_zero_of_le h, List.take_zero,
      List.append_nil]
    rw [List.drop_append_eq_append_drop, Nat.sub_eq_zero_of_le h, List.drop_zero]
    exact ih
  · intro st a h
    rw [sm3_compressBlocks_of_lt st a (by omega)]

theorem sm3_update_spec (ctx : Sm3Ctx) (data : List Byte)
    (hbuf : ctx.buffer.length = ctx.count % 64) :
    sm3_update ctx data =
      ⟨(sm3_compressBlocks ctx.state (ctx.buffer ++ data)).1,
       (ctx.count + data.length) % 2 ^ 64,
       (sm3_compressBlocks ctx.state (ctx.buffer ++ data)).2⟩ := by
  have hleft : ctx.count % 64 < 64 := Nat.mod_lt _ (by omega)
  unfold sm3_update
  by_cases h1 : ctx.count % 64 ≠ 0 ∧ 64 - ctx.count % 64 ≤ data.length
  · rw [if_pos h1]
    have hlen : 64 ≤ (ctx.buffer ++ data).length := by
      simp only [List.length_append, hbuf]
      omega
    rw [sm3_compressBlocks_of_ge _ _ hlen]
    rw [@List.take_append_eq_append_take _ ctx.buffer data 64]
    rw [List.take_of_length_le (show ctx.buffer.length ≤ 64 by omega)]
    rw [@List.drop_append_eq_append_drop _ ctx.buffer data 64]
    rw [List.drop_eq_nil_of_le (by omega : ctx.buffer.length ≤ 64), List.nil_append, hbuf]
  · rw [if_neg h1]
    by_cases h2 : ctx.count % 64 = 0
    · rw [if_pos h2]
      have hb : ctx.buffer = [] := by
        have hz := hbuf
        rw [h2] at hz
        exact List.eq_nil_of_length_eq_zero hz
      rw [hb, List.nil_append]
    · rw [if_neg h2]
      have hlt : (ctx.buffer ++ data).length < 64 := by
        simp only [List.length_append, hbuf]
        omega
      rw [sm3_compressBlocks_of_lt _ _ hlt]

theorem sm3_update_wf (ctx : Sm3Ctx) (data : List Byte)
    (hbuf : ctx.buffer.length = ctx.count % 64) :
    (sm3_update ctx data).buffer.length = (sm3_update ctx data).count % 64 := by
  rw [sm3_update_spec ctx data hbuf]
  show (sm3_compressBlocks ctx.state (ctx.buffer ++ data)).2.length = _
  rw [sm3_compressBlocks_snd_len]
  simp only [List.length_append, hbuf]
  omega

theorem sm3_update_count (ctx : Sm3Ctx) (data : List Byte)
    (hbuf : ctx.buffer.length = ctx.count % 64) :
    (sm3_update ctx data).count = (ctx.count + data.length) % 2 ^ 64 := by
  rw [sm3_update_spec ctx data hbuf]

/-- C9: after `sm3_init` and any sequence of `sm3_update` calls, the counter
is the total number of bytes consumed (reduced by the `uint64_t` width) and
the partial buffer holds exactly `count % 64` pending bytes, always fewer
than 64. -/
theorem sm3_state_invariant (datas : List (List Byte)) :
    (datas.foldl sm3_update sm3_init).count = (datas.map List.length).sum % 2 ^ 64 ∧
    (datas.foldl sm3_update sm3_init).buffer.length =
      (datas.foldl sm3_update sm3_init).count % 64 ∧
    (datas.foldl sm3_update sm3_init).buffer.length < 64 := by
  have aux : ∀ (ds : List (List Byte)) (ctx : Sm3Ctx),
      ctx.buffer.length = ctx.count % 64 → ctx.count < 2 ^ 64 →
      (ds.foldl sm3_update ctx).count = ((ds.map List.length).sum + ctx.count) % 2 ^ 64 ∧
      (ds.foldl sm3_update ctx).buffer.length = (ds.foldl sm3_update ctx).count % 64 := by
    intro ds
    induction ds with
    | nil =>
      intro ctx hbuf hlt
      refine ⟨?_, hbuf⟩
      simp only [List.foldl_nil, List.map_nil, List.sum_nil, Nat.zero_add]
      exact (Nat.mod_eq_of_lt hlt).symm
    | cons d t ih =>
      intro ctx hbuf hlt
      have h1 := sm3_update_wf ctx d hbuf
      have h2 := sm3_update_count ctx d hbuf
      have h3 : (sm3_update ctx d).count < 2 ^ 64 := by
        rw [h2]
        exact Nat.mod_lt _ (by norm_num)
      obtain ⟨hc, hb⟩ := ih (sm3_update ctx d) h1 h3
      refine ⟨?_, hb⟩
      rw [List.foldl_cons]
      rw [hc, h2]
      simp only [List.map_cons, List.sum_cons]
      omega
  obtain ⟨hc, hb⟩ := aux datas sm3_init rfl (show (0:Nat) < 2 ^ 64 by norm_num)
  refine ⟨by simpa using hc, hb, ?_⟩
  rw [hb]
  exact Nat.mod_lt _ (by omega)

/-! ### Bounds and shape lemmas for the SM3 state -/

theorem sm3_p0_lt {x : Nat} (hx : x < 2 ^ 32) : sm3_p0 x < 2 ^ 32 :=
  Nat.xor_lt_two_pow (Nat.xor_lt_two_pow hx (rotl32_lt _ _)) (rotl32_lt _ _)

/-- All eight working registers are 32-bit values. -/
def RegsLt (r : Regs8) : Prop :=
  r.1 < 2 ^ 32 ∧ r.2.1 < 2 ^ 32 ∧ r.2.2.1 < 2 ^ 32 ∧ r.2.2.2.1 < 2 ^ 32 ∧
    r.2.2.2.2.1 < 2 ^ 32 ∧ r.2.2.2.2.2.1 < 2 ^ 32 ∧ r.2.2.2.2.2.2.1 < 2 ^ 32 ∧
    r.2.2.2.2.2.2.2 < 2 ^ 32

theorem sm3_round1_lt (W W1 : Array Nat) (r : Regs8) (j : Nat) (hr : RegsLt r) :
    RegsLt (sm3_round1 W W1 r j) := by
  obtain ⟨h1, h2, h3, h4, h5, h6, h7, h8⟩ := hr
  exact ⟨add32_lt _ _, h1, rotl32_lt _ _, h3, sm3_p0_lt (add32_lt _ _), h5, rotl32_lt _ _, h7⟩

theorem sm3_foldl_round1_lt (W W1 : Array Nat) (l : List Nat) :
    ∀ r : Regs8, RegsLt r → RegsLt (l.foldl (sm3_round1 W W1) r) := by
  induction l with
  | nil => intro r hr; exact hr
  | cons j t ih =>
    intro r hr
    exact ih _ (sm3_round1_lt W W1 r j hr)

theorem sm3_loadRegs_lt (state : List Nat) (h : ∀ w ∈ state, w < 2 ^ 32) :
    RegsLt (sm3_loadRegs state) := by
  refine ⟨?_, ?_, ?_, ?_, ?_, ?_, ?_, ?_⟩ <;>
    exact getD_lt_of_forall h (by norm_num) _

theorem sm3_compress_basic_length (state : List Nat) (block : List Byte) :
    (sm3_compress_basic state block).length = 8 := rfl

theorem sm3_compress_basic_lt (state : List Nat) (block : List Byte)
    (h : ∀ w ∈ state, w < 2 ^ 32) : ∀ w ∈ sm3_compress_basic state block, w < 2 ^ 32 := by
  intro w hw
  have hfold := sm3_foldl_round1_lt (sm3_expandW block) (sm3_w1 (sm3_expandW block))
    (List.range 64) (sm3_loadRegs state) (sm3_loadRegs_lt state h)
  obtain ⟨g1, g2, g3, g4, g5, g6, g7, g8⟩ := hfold
  have hgd : ∀ i, state.getD i 0 < 2 ^ 32 := fun i => getD_lt_of_forall h (by norm_num) i
  simp only [sm3_compress_basic, sm3_feedForward, List.mem_cons, List.not_mem_nil,
    or_false] at hw
  rcases hw with rfl | rfl | rfl | rfl | rfl | rfl | rfl | rfl
  · exact Nat.xor_lt_two_pow (hgd 0) g1
  · exact Nat.xor_lt_two_pow (hgd 1) g2
  · exact Nat.xor_lt_two_pow (hgd 2) g3
  · exact Nat.xor_lt_two_pow (hgd 3) g4
  · exact Nat.xor_lt_two_pow (hgd 4) g5
  · exact Nat.xor_lt_two_pow (hgd 5) g6
  · exact Nat.xor_lt_two_pow (hgd 6) g7
  · exact Nat.xor_lt_two_pow (hgd 7) g8

theorem sm3_compress_optimized_length (state : List Nat) (block : List Byte) :
    (sm3_compress_optimized state block).length = 8 := by
  rw [sm3_compress_eq_aux]
  exact sm3_compress_basic_length state block

theorem sm3_compress_optimized_lt (state : List Nat) (block : List Byte)
    (h : ∀ w ∈ state, w < 2 ^ 32) : ∀ w ∈ sm3_compress_optimized state block, w < 2 ^ 32 := by
  rw [sm3_compress_eq_aux]
  exact sm3_compress_basic_lt state block h

theorem sm3_compressBlocks_fst_wf (st : List Nat) (d : List Byte) (h8 : st.length = 8)
    (hlt : ∀ w ∈ st, w < 2 ^ 32) :
    (sm3_compressBlocks st d).1.length = 8 ∧ ∀ w ∈ (sm3_compressBlocks st d).1, w < 2 ^ 32 := by
  refine sm3_compressBlocks_induction
    (fun st d => st.length = 8 → (∀ w ∈ st, w < 2 ^ 32) →
      (sm3_compressBlocks st d).1.length = 8 ∧ ∀ w ∈ (sm3_compressBlocks st d).1, w < 2 ^ 32)
    ?_ ?_ st d h8 hlt
  · intro st d h ih h8 hlt
    rw [sm3_compressBlocks_of_ge st d h]
    exact ih (sm3_compress_optimized_length st _) (sm3_compress_optimized_lt st _ hlt)
  · intro st d h h8 hlt
    rw [sm3_compressBlocks_of_lt st d (by omega)]
    exact ⟨h8, hlt⟩

/-! ### Serialization round-trip and padding arithmetic -/

theorem extract_sm3_state_serialize (st : List Nat) (h8 : st.length = 8)
    (hlt : ∀ w ∈ st, w < 2 ^ 32) :
    extract_sm3_state (sm3_serialize st) = st := by
  obtain ⟨w0, t0, he0, hx0⟩ := exists_cons_of_length_eq (n := 7) h8
  subst he0
  obtain ⟨w1, t1, he1, hx1⟩ := exists_cons_of_length_eq (n := 6) hx0
  subst he1
  obtain ⟨w2, t2, he2, hx2⟩ := exists_cons_of_length_eq (n := 5) hx1
  subst he2
  obtain ⟨w3, t3, he3, hx3⟩ := exists_cons_of_length_eq (n := 4) hx2
  subst he3
  obtain ⟨w4, t4, he4, hx4⟩ := exists_cons_of_length_eq (n := 3) hx3
  subst he4
  obtain ⟨w5, t5, he5, hx5⟩ := exists_cons_of_length_eq (n := 2) hx4
  subst he5
  obtain ⟨w6, t6, he6, hx6⟩ := exists_cons_of_length_eq (n := 1) hx5
  subst he6
  obtain ⟨w7, t7, he7, hx7⟩ := exists_cons_of_length_eq (n := 0) hx6
  subst he7
  obtain rfl : t7 = [] := List.eq_nil_of_length_eq_zero hx7
  have h0 : w0 < 2 ^ 32 := hlt _ (by simp)
  have h1 : w1 < 2 ^ 32 := hlt _ (by simp)
  have h2 : w2 < 2 ^ 32 := hlt _ (by simp)
  have h3 : w3 < 2 ^ 32 := hlt _ (by simp)
  have h4 : w4 < 2 ^ 32 := hlt _ (by simp)
  have h5 : w5 < 2 ^ 32 := hlt _ (by simp)
  have h6 : w6 < 2 ^ 32 := hlt _ (by simp)
  have h7 : w7 < 2 ^ 32 := hlt _ (by simp)
  show [loadB (byteOf (w0 >>> 24)) (byteOf (w0 >>> 16)) (byteOf (w0 >>> 8)) (byteOf w0),
    loadB (byteOf (w1 >>> 24)) (byteOf (w1 >>> 16)) (byteOf (w1 >>> 8)) (byteOf w1),
    loadB (byteOf (w2 >>> 24)) (byteOf (w2 >>> 16)) (byteOf (w2 >>> 8)) (byteOf w2),
    loadB (byteOf (w3 >>> 24)) (byteOf (w3 >>> 16)) (byteOf (w3 >>> 8)) (byteOf w3),
    loadB (byteOf (w4 >>> 24)) (byteOf (w4 >>> 16)) (byteOf (w4 >>> 8)) (byteOf w4),
    loadB (byteOf (w5 >>> 24)) (byteOf (w5 >>> 16)) (byteOf (w5 >>> 8)) (byteOf w5),
    loadB (byteOf (w6 >>> 24)) (byteOf (w6 >>> 16)) (byteOf (w6 >>> 8)) (byteOf w6),
    loadB (byteOf (w7 >>> 24)) (byteOf (w7 >>> 16)) (byteOf (w7 >>> 8)) (byteOf w7)] =
    [w0, w1, w2, w3, w4, w5, w6, w7]
  rw [loadB_storeW32 _ h0, loadB_storeW32 _ h1, loadB_storeW32 _ h2, loadB_storeW32 _ h3,
    loadB_storeW32 _ h4, loadB_storeW32 _ h5, loadB_storeW32 _ h6, loadB_storeW32 _ h7]

theorem sm3_padBlock_length (c : Nat) :
    (sm3_padBlock c).length =
      (if c % 64 < 56 then 56 - c % 64 else 120 - c % 64) + 8 := by
  have hc : c % 64 < 64 := Nat.mod_lt _ (by omega)
  simp only [sm3_padBlock, sm3_lenBytes, List.length_append, List.length_cons,
    List.length_replicate]
  split_ifs <;> simp only [List.length_cons, List.length_nil] <;> omega

theorem sm3_padBlock_total (c : Nat) : (c + (sm3_padBlock c).length) % 64 = 0 := by
  rw [sm3_padBlock_length]
  have hc : c % 64 < 64 := Nat.mod_lt _ (by omega)
  split_ifs <;> omega

theorem sm3_padding_eq_padBlock (n : Nat) : sm3_padding n = sm3_padBlock n := by
  simp only [sm3_padding, sm3_padBlock]
  have hz : (if 64 - (n + 9) % 64 = 64 then 0 else 64 - (n + 9) % 64) + 9 - 9 =
      (if n % 64 < 56 then 56 - n % 64 else 120 - n % 64) - 1 := by
    split_ifs <;> omega
  rw [hz]

theorem sm3_padBlock_mod (n : Nat) : sm3_padBlock (n % 2 ^ 64) = sm3_padBlock n := by
  have h1 : n % 2 ^ 64 % 64 = n % 64 :=
    Nat.mod_mod_of_dvd n (by norm_num : (64 : Nat) ∣ 2 ^ 64)
  have h2 : (n % 2 ^ 64 * 8) % 2 ^ 64 = (n * 8) % 2 ^ 64 := Nat.mod_mul_mod
  simp only [sm3_padBlock, sm3_lenBytes, h1, h2]

theorem sm3_compressBlocks_snd_nil (st : List Nat) (d : List Byte)
    (h : d.length % 64 = 0) : (sm3_compressBlocks st d).2 = [] :=
  List.eq_nil_of_length_eq_zero (by rw [sm3_compressBlocks_snd_len, h])

theorem sm3_final_spec (ctx : Sm3Ctx) (hbuf : ctx.buffer.length = ctx.count % 64) :
    sm3_final ctx =
      sm3_serialize (sm3_compressBlocks ctx.state (ctx.buffer ++ sm3_padBlock ctx.count)).1 := by
  unfold sm3_final
  rw [sm3_update_spec ctx _ hbuf]

theorem sm3_hash_spec (data : List Byte) :
    sm3_hash data =
      sm3_serialize (sm3_compressBlocks sm3_iv (data ++ sm3_padBlock data.length)).1 := by
  unfold sm3_hash
  rw [sm3_final_spec _ (sm3_update_wf sm3_init data rfl)]
  rw [sm3_update_spec sm3_init data rfl]
  show sm3_serialize (sm3_compressBlocks (sm3_compressBlocks sm3_iv ([] ++ data)).1
    ((sm3_compressBlocks sm3_iv ([] ++ data)).2 ++
      sm3_padBlock ((0 + data.length) % 2 ^ 64))).1 = _
  rw [List.nil_append, Nat.zero_add, sm3_padBlock_mod, ← sm3_compressBlocks_append]

/-- C6: for every secret `S`, known message `M` and suffix `X`, the digest
produced by `sm3_length_extension_attack (sm3_hash (S ++ M)) (S ++ M).length X`
equals the direct hash of `S ++ M ++ padding ++ X`, where `padding` is
exactly `sm3_padding (S ++ M).length`. -/
theorem sm3_length_extension_attack_correct (S M X : List Byte) :
    (sm3_length_extension_attack (sm3_hash (S ++ M)) (S ++ M).length X).2 =
      sm3_hash (S ++ M ++ sm3_padding (S ++ M).length ++ X) := by
  have hivlt : ∀ w ∈ sm3_iv, w < 2 ^ 32 := by decide
  set D := S ++ M with hD
  set n := D.length with hn
  set P := sm3_padBlock n with hP
  have hDPlen : (D ++ P).length = n + P.length := by
    rw [List.length_append]
  have hDP64 : (D ++ P).length % 64 = 0 := by
    rw [hDPlen, hP]
    exact sm3_padBlock_total n
  have hst1 := sm3_compressBlocks_fst_wf sm3_iv (D ++ P) rfl hivlt
  have hhash : sm3_hash D = sm3_serialize (sm3_compressBlocks sm3_iv (D ++ P)).1 :=
    sm3_hash_spec D
  have hextract : extract_sm3_state (sm3_hash D) = (sm3_compressBlocks sm3_iv (D ++ P)).1 := by
    rw [hhash, extract_sm3_state_serialize _ hst1.1 hst1.2]
  set st1 := (sm3_compressBlocks sm3_iv (D ++ P)).1 with hst1d
  have hpn : n + 1 + (64 - (n + 9) % 64) % 64 + 8 = n + P.length := by
    rw [hP, sm3_padBlock_length]
    split_ifs <;> omega
  -- the left-hand side: the attack digest
  show sm3_continue_from_state (extract_sm3_state (sm3_hash D)) X n =
    sm3_hash (D ++ sm3_padding n ++ X)
  rw [hextract]
  unfold sm3_continue_from_state
  rw [hpn]
  have hwf0 : (Sm3Ctx.mk st1 ((n + P.length) % 2 ^ 64) []).buffer.length =
      (Sm3Ctx.mk st1 ((n + P.length) % 2 ^ 64) []).count % 64 := by
    show (0 : Nat) = (n + P.length) % 2 ^ 64 % 64
    rw [Nat.mod_mod_of_dvd _ (by norm_num : (64 : Nat) ∣ 2 ^ 64)]
    rw [hP, sm3_padBlock_total n]
  rw [sm3_final_spec _ (sm3_update_wf _ X hwf0), sm3_update_spec _ X hwf0]
  show sm3_serialize (sm3_compressBlocks (sm3_compressBlocks st1 ([] ++ X)).1
    ((sm3_compressBlocks st1 ([] ++ X)).2 ++
      sm3_padBlock (((n + P.length) % 2 ^ 64 + X.length) % 2 ^ 64))).1 =
    sm3_hash (D ++ sm3_padding n ++ X)
  rw [List.nil_append, ← sm3_compressBlocks_append, Nat.mod_add_mod, sm3_padBlock_mod]
  -- the right-hand side: the direct hash
  rw [sm3_padding_eq_padBlock, ← hP, sm3_hash_spec]
  rw [List.length_append, List.length_append, ← hn, List.append_assoc (D ++ P) X,
    sm3_compressBlocks_append sm3_iv (D ++ P), sm3_compressBlocks_snd_nil _ _ hDP64,
    List.nil_append]

/-! ## SM4-GCM (project1, `sm4_gcm.c`)

The GCM construction is embedded below.  The block cipher it drives
(`sm4_setkey_enc` / `sm4_encrypt_basic`) lives in a translation unit missing
from the sources, so the construction is parameterized by the keyed
block-encryption function `E` — one `E` per key.  Buffers are byte lists;
the `uint64_t` length accumulators wrap mod `2^64`. -/

/-- Zero-pad a block to 16 bytes, as the `memset`/`memcpy` staging buffers do. -/
def pad16 (l : List Byte) : List Byte := l ++ List.replicate (16 - l.length) (0 : Byte)

/-- Big-endian store of a 64-bit value as eight bytes. -/
def storeW64 (w : Nat) : List Byte :=
  [byteOf (w >>> 56), byteOf (w >>> 48), byteOf (w >>> 40), byteOf (w >>> 32),
   byteOf (w >>> 24), byteOf (w >>> 16), byteOf (w >>> 8), byteOf w]

/-- `gcm_increment_counter`: increment only the rightmost 32 bits of the
counter as a big-endian integer (wrapping mod `2^32`); bytes 0-11 are left
untouched. -/
def gcm_increment_counter (c : List Byte) : List Byte :=
  c.take 12 ++
    storeW32 ((loadB (c.getD 12 0) (c.getD 13 0) (c.getD 14 0) (c.getD 15 0) + 1) % 2 ^ 32)

/-- Byte-wise XOR of two 16-byte vectors. -/
def xor16 (a b : List Byte) : List Byte := List.zipWith bxor a b

/-- The right-shift-by-one-bit step of `gf128_mul`. -/
def gf128_shift (v : List Byte) : List Byte :=
  (List.range 16).map (fun k =>
    if k = 0 then byteOf ((v.getD 0 0).val >>> 1)
    else byteOf (((v.getD k 0).val >>> 1) ||| (((v.getD (k - 1) 0).val &&& 1) <<< 7)))

/-- One inner-loop iteration of `gf128_mul`, at flattened bit index
`idx = 8*i + j`. -/
def gf128_step (a : List Byte) (zv : List Byte × List Byte) (idx : Nat) :
    List Byte × List Byte :=
  let i := idx / 8
  let j := idx % 8
  let z := if (a.getD i 0).val &&& (0x80 >>> j) ≠ 0 then xor16 zv.1 zv.2 else zv.1
  let lsb := (zv.2.getD 15 0).val &&& 1
  let v1 := gf128_shift zv.2
  let v := if lsb = 1 then byteOf ((v1.getD 0 0).val ^^^ 0xE1) :: v1.drop 1 else v1
  (z, v)

/-- `gf128_mul`: bit-at-a-time multiplication in GF(2^128) under the
polynomial `x^128 + x^7 + x^2 + x + 1`. -/
def gf128_mul (a b : List Byte) : List Byte :=
  ((List.range 128).foldl (gf128_step a) (List.replicate 16 (0 : Byte), b)).1

/-- `ghash`: absorb successive 16-byte blocks (the last zero-padded) into
the accumulator. -/
def ghash (h : List Byte) (data : List Byte) (ghs : List Byte) : List Byte :=
  if data = [] then ghs
  else ghash h (data.drop 16) (gf128_mul (xor16 ghs (pad16 (data.take 16))) h)
termination_by data.length
decreasing_by
  simp only [List.length_drop]
  have : data.length ≠ 0 := fun hz => by
    simp [List.eq_nil_of_length_eq_zero hz] at *
  omega

/-- The GCM context `sm4_gcm_context_t` (minus the embedded key schedule,
which is folded into the parameter `E`). -/
structure GcmCtx where
  h : List Byte
  j0 : List Byte
  counter : List Byte
  ghash_state : List Byte
  aad_len : Nat
  ciphertext_len : Nat
  mode : Nat

/-- `sm4_gcm_init`: compute the hash subkey `H = E(0^128)` and clear the
accumulator and length counters.  (`j0`, `counter` and `mode` are set by
`sm4_gcm_starts` before any use; they start as zero blocks here.) -/
def sm4_gcm_init (E : List Byte → List Byte) : GcmCtx :=
  ⟨E (List.replicate 16 (0 : Byte)), List.replicate 16 (0 : Byte),
   List.replicate 16 (0 : Byte), List.replicate 16 (0 : Byte), 0, 0, 0⟩

/-- `sm4_gcm_starts`: derive `J0` from the IV, copy it into the running
counter, and reset the GHASH accumulator and the length counters. -/
def sm4_gcm_starts (ctx : GcmCtx) (mode : Nat) (iv : List Byte) : GcmCtx :=
  let j0 :=
    if iv.length = 12 then
      iv.take 12 ++ [(0 : Byte), (0 : Byte), (0 : Byte), (1 : Byte)]
    else
      let j1 := ghash ctx.h iv (List.replicate 16 (0 : Byte))
      let len_block := List.replicate 8 (0 : Byte) ++ storeW64 ((iv.length * 8) % 2 ^ 64)
      ghash ctx.h len_block j1
  ⟨ctx.h, j0, j0, List.replicate 16 (0 : Byte), 0, 0, mode⟩

/-- `sm4_gcm_update_ad`: absorb the additional authenticated data. -/
def sm4_gcm_update_ad (ctx : GcmCtx) (aad : List Byte) : GcmCtx :=
  if aad.length = 0 then ctx
  else { ctx with aad_len := (ctx.aad_len + aad.length) % 2 ^ 64,
                  ghash_state := ghash ctx.h aad ctx.ghash_state }

/-- The per-block loop of `sm4_gcm_update`: increment the counter first,
encrypt it for the keystream, XOR with the (possibly partial) input chunk,
and absorb the zero-padded ciphertext chunk into GHASH (the output chunk in
encrypt mode, the input chunk in decrypt mode). -/
def sm4_gcm_update_loop (E : List Byte → List Byte) (ctx : GcmCtx) (input : List Byte) :
    GcmCtx × List Byte :=
  if input = [] then (ctx, [])
  else
    let counter' := gcm_increment_counter ctx.counter
    let keystream := E counter'
    let chunk := input.take 16
    let out := List.zipWith bxor chunk keystream
    let cipher_block := pad16 (if ctx.mode = 1 then out else chunk)
    let ctx' := { ctx with counter := counter',
                           ghash_state := ghash ctx.h cipher_block ctx.ghash_state }
    let r := sm4_gcm_update_loop E ctx' (input.drop 16)
    (r.1, out ++ r.2)
termination_by input.length
decreasing_by
  simp only [List.length_drop]
  have : input.length ≠ 0 := fun hz => by
    simp [List.eq_nil_of_length_eq_zero hz] at *
  omega

/-- `sm4_gcm_update`: run the block loop and account the processed bytes. -/
def sm4_gcm_update (E : List Byte → List Byte) (ctx : GcmCtx) (input : List Byte) :
    GcmCtx × List Byte :=
  let r := sm4_gcm_update_loop E ctx input
  ({ r.1 with ciphertext_len := (ctx.ciphertext_len + input.length) % 2 ^ 64 }, r.2)

/-- `sm4_gcm_finish`: absorb the length block, XOR the accumulator with
`E(J0)`, and write `min 16 tag_len` tag bytes into the caller's buffer;
the rest of the buffer is untouched and the return value is always 0. -/
def sm4_gcm_finish (E : List Byte → List Byte) (ctx : GcmCtx) (tagBuf : List Byte)
    (tag_len : Nat) : List Byte × Int :=
  let len_block := storeW64 ((ctx.aad_len * 8) % 2 ^ 64) ++
    storeW64 ((ctx.ciphertext_len * 8) % 2 ^ 64)
  let s := ghash ctx.h len_block ctx.ghash_state
  let encrypted_j0 := E ctx.j0
  let fullTag := List.zipWith bxor s encrypted_j0
  (fullTag.take (min 16 tag_len) ++ tagBuf.drop (min 16 tag_len), 0)

/-- `sm4_gcm_encrypt`: the high-level pipeline.  `tagBuf` is the caller's
tag buffer of `tag_len` bytes; the result is the ciphertext, the written
tag buffer, and the return code. -/
def sm4_gcm_encrypt (E : List Byte → List Byte) (iv aad plaintext : List Byte)
    (tagBuf : List Byte) (tag_len : Nat) : List Byte × List Byte × Int :=
  let ctx1 := sm4_gcm_starts (sm4_gcm_init E) 1 iv
  let ctx2 := sm4_gcm_update_ad ctx1 aad
  let r := sm4_gcm_update E ctx2 plaintext
  let t := sm4_gcm_finish E r.1 tagBuf tag_len
  (r.2, t.1, 0)

/-- `sm4_gcm_decrypt`: decrypt, recompute the tag into a fresh 16-byte
stack buffer, compare the first `tag_len` bytes in constant time, and on
mismatch zero the plaintext and return -1. -/
def sm4_gcm_decrypt (E : List Byte → List Byte) (iv aad ciphertext tag : List Byte)
    (tag_len : Nat) : List Byte × Int :=
  let ctx1 := sm4_gcm_starts (sm4_gcm_init E) 0 iv
  let ctx2 := sm4_gcm_update_ad ctx1 aad
  let r := sm4_gcm_update E ctx2 ciphertext
  let t := sm4_gcm_finish E r.1 (List.replicate 16 (0 : Byte)) tag_len
  let diff := (List.range tag_len).foldl
    (fun d i => d ||| ((tag.getD i 0).val ^^^ (t.1.getD i 0).val)) 0
  if diff ≠ 0 then (List.replicate ciphertext.length (0 : Byte), -1) else (r.2, 0)

/-- The tag that `sm4_gcm_decrypt` recomputes into its stack buffer before
the constant-time comparison (the same pipeline as the decrypt path). -/
def sm4_gcm_recomputed_tag (E : List Byte → List Byte) (iv aad ciphertext : List Byte)
    (tag_len : Nat) : List Byte :=
  let ctx1 := sm4_gcm_starts (sm4_gcm_init E) 0 iv
  let ctx2 := sm4_gcm_update_ad ctx1 aad
  let r := sm4_gcm_update E ctx2 ciphertext
  (sm4_gcm_finish E r.1 (List.replicate 16 (0 : Byte)) tag_len).1

/-! ### Shape lemmas for GHASH and the GCM loop -/

theorem gf128_shift_len (v : List Byte) : (gf128_shift v).length = 16 := by
  simp [gf128_shift]

theorem gf128_step_len (a : List Byte) (zv : List Byte × List Byte) (idx : Nat)
    (hz : zv.1.length = 16) (hv : zv.2.length = 16) :
    (gf128_step a zv idx).1.length = 16 ∧ (gf128_step a zv idx).2.length = 16 := by
  unfold gf128_step
  constructor
  · show (if _ then xor16 zv.1 zv.2 else zv.1).length = 16
    split
    · simp [xor16, hz, hv]
    · exact hz
  · show (if _ then _ :: (gf128_shift zv.2).drop 1 else gf128_shift zv.2).length = 16
    split
    · simp [gf128_shift_len]
    · exact gf128_shift_len _

theorem gf128_foldl_len (a : List Byte) (l : List Nat) :
    ∀ zv : List Byte × List Byte, zv.1.length = 16 → zv.2.length = 16 →
      (l.foldl (gf128_step a) zv).1.length = 16 ∧ (l.foldl (gf128_step a) zv).2.length = 16 := by
  induction l with
  | nil => intro zv hz hv; exact ⟨hz, hv⟩
  | cons x t ih =>
    intro zv hz hv
    obtain ⟨h1, h2⟩ := gf128_step_len a zv x hz hv
    exact ih _ h1 h2

theorem gf128_mul_len (a b : List Byte) (hb : b.length = 16) :
    (gf128_mul a b).length = 16 :=
  (gf128_foldl_len a (List.range 128) (List.replicate 16 0, b) (by simp) hb).1

theorem ghash_nil (h ghs : List Byte) : ghash h [] ghs = ghs := by
  rw [ghash]
  simp

theorem ghash_cons (h d ghs : List Byte) (hd : d ≠ []) :
    ghash h d ghs = ghash h (d.drop 16) (gf128_mul (xor16 ghs (pad16 (d.take 16))) h) := by
  rw [ghash, if_neg hd]

theorem ghash_len_aux (h : List Byte) (hh : h.length = 16) :
    ∀ (n : Nat) (d ghs : List Byte), d.length ≤ n → ghs.length = 16 →
      (ghash h d ghs).length = 16 := by
  intro n
  induction n with
  | zero =>
    intro d ghs hd hg
    obtain rfl : d = [] := List.eq_nil_of_length_eq_zero (by omega)
    rw [ghash_nil]
    exact hg
  | succ n ih =>
    intro d ghs hd hg
    by_cases hnil : d = []
    · subst hnil
      rw [ghash_nil]
      exact hg
    · rw [ghash_cons _ _ _ hnil]
      have hpos : 0 < d.length := List.length_pos.mpr hnil
      exact ih _ _ (by simp only [List.length_drop]; omega) (gf128_mul_len _ _ hh)

theorem ghash_len (h d ghs : List Byte) (hh : h.length = 16) (hg : ghs.length = 16) :
    (ghash h d ghs).length = 16 :=
  ghash_len_aux h hh d.length d ghs le_rfl hg

theorem sm4_gcm_update_loop_nil (E : List Byte → List Byte) (ctx : GcmCtx) :
    sm4_gcm_update_loop E ctx [] = (ctx, []) := by
  rw [sm4_gcm_update_loop]
  simp

/-- The context passed to the next iteration of the GCM block loop. -/
def gcmLoopNext (E : List Byte → List Byte) (ctx : GcmCtx) (input : List Byte) : GcmCtx :=
  { ctx with counter := gcm_increment_counter ctx.counter,
             ghash_state := ghash ctx.h
               (pad16 (if ctx.mode = 1 then
                  List.zipWith bxor (input.take 16) (E (gcm_increment_counter ctx.counter))
                else input.take 16)) ctx.ghash_state }

theorem sm4_gcm_update_loop_cons (E : List Byte → List Byte) (ctx : GcmCtx)
    (input : List Byte) (h : input ≠ []) :
    sm4_gcm_update_loop E ctx input =
      ((sm4_gcm_update_loop E (gcmLoopNext E ctx input) (input.drop 16)).1,
       List.zipWith bxor (input.take 16) (E (gcm_increment_counter ctx.counter)) ++
         (sm4_gcm_update_loop E (gcmLoopNext E ctx input) (input.drop 16)).2) := by
  rw [sm4_gcm_update_loop, if_neg h]
  rfl

theorem sm4_gcm_update_loop_fields (E : List Byte → List Byte) :
    ∀ (n : Nat) (input : List Byte) (ctx : GcmCtx), input.length ≤ n →
      (sm4_gcm_update_loop E ctx input).1.h = ctx.h ∧
      (sm4_gcm_update_loop E ctx input).1.j0 = ctx.j0 ∧
      (sm4_gcm_update_loop E ctx input).1.aad_len = ctx.aad_len ∧
      (sm4_gcm_update_loop E ctx input).1.ciphertext_len = ctx.ciphertext_len ∧
      (sm4_gcm_update_loop E ctx input).1.mode = ctx.mode := by
  intro n
  induction n with
  | zero =>
    intro input ctx hle
    obtain rfl : input = [] := List.eq_nil_of_length_eq_zero (by omega)
    rw [sm4_gcm_update_loop_nil]
    exact ⟨rfl, rfl, rfl, rfl, rfl⟩
  | succ n ih =>
    intro input ctx hle
    by_cases hnil : input = []
    · subst hnil
      rw [sm4_gcm_update_loop_nil]
      exact ⟨rfl, rfl, rfl, rfl, rfl⟩
    · rw [sm4_gcm_update_loop_cons E ctx input hnil]
      have hpos : 0 < input.length := List.length_pos.mpr hnil
      exact ih (input.drop 16) (gcmLoopNext E ctx input)
        (by simp only [List.length_drop]; omega)

theorem sm4_gcm_update_loop_out_len (E : List Byte → List Byte)
    (hE : ∀ b, (E b).length = 16) :
    ∀ (n : Nat) (input : List Byte) (ctx : GcmCtx), input.length ≤ n →
      (sm4_gcm_update_loop E ctx input).2.length = input.length := by
  intro n
  induction n with
  | zero =>
    intro input ctx hle
    obtain rfl : input = [] := List.eq_nil_of_length_eq_zero (by omega)
    rw [sm4_gcm_update_loop_nil]
  | succ n ih =>
    intro input ctx hle
    by_cases hnil : input = []
    · subst hnil
      rw [sm4_gcm_update_loop_nil]
    · rw [sm4_gcm_update_loop_cons E ctx input hnil]
      have hpos : 0 < input.length := List.length_pos.mpr hnil
      have hrest := ih (input.drop 16) (gcmLoopNext E ctx input)
        (by simp only [List.length_drop]; omega)
      show (List.zipWith bxor (input.take 16) _ ++ _).length = input.length
      rw [List.length_append, hrest, List.length_zipWith, List.length_take, hE]
      simp only [List.length_drop]
      omega

theorem sm4_gcm_update_loop_ghs_len (E : List Byte → List Byte) :
    ∀ (n : Nat) (input : List Byte) (ctx : GcmCtx), input.length ≤ n →
      ctx.h.length = 16 → ctx.ghash_state.length = 16 →
      (sm4_gcm_update_loop E ctx input).1.ghash_state.length = 16 := by
  intro n
  induction n with
  | zero =>
    intro input ctx hle hh hg
    obtain rfl : input = [] := List.eq_nil_of_length_eq_zero (by omega)
    rw [sm4_gcm_update_loop_nil]
    exact hg
  | succ n ih =>
    intro input ctx hle hh hg
    by_cases hnil : input = []
    · subst hnil
      rw [sm4_gcm_update_loop_nil]
      exact hg
    · rw [sm4_gcm_update_loop_cons E ctx input hnil]
      have hpos : 0 < input.length := List.length_pos.mpr hnil
      exact ih (input.drop 16) (gcmLoopNext E ctx input)
        (by simp only [List.length_drop]; omega) hh (ghash_len _ _ _ hh hg)

/-! ### C4: GCM round trip -/

theorem bxor_cancel (x y : Byte) : bxor (bxor x y) y = x := by
  apply Fin.ext
  show x.val ^^^ y.val ^^^ y.val = x.val
  rw [Nat.xor_assoc, Nat.xor_self, Nat.xor_zero]

theorem zipWith_bxor_cancel : ∀ (a b : List Byte), a.length ≤ b.length →
    List.zipWith bxor (List.zipWith bxor a b) b = a := by
  intro a
  induction a with
  | nil => intro b h; simp
  | cons x t ih =>
    intro b h
    cases b with
    | nil => simp at h
    | cons y s =>
      simp only [List.zipWith_cons_cons]
      rw [bxor_cancel, ih s (by simpa using h)]

theorem gcm_loop_roundtrip_aux (E : List Byte → List Byte) (hE : ∀ b, (E b).length = 16) :
    ∀ (n : Nat) (input : List Byte) (ctxE ctxD : GcmCtx), input.length ≤ n →
      ctxE.h = ctxD.h → ctxE.counter = ctxD.counter →
      ctxE.ghash_state = ctxD.ghash_state → ctxE.mode = 1 → ctxD.mode = 0 →
      (sm4_gcm_update_loop E ctxD (sm4_gcm_update_loop E ctxE input).2).2 = input ∧
      (sm4_gcm_update_loop E ctxD (sm4_gcm_update_loop E ctxE input).2).1.counter =
        (sm4_gcm_update_loop E ctxE input).1.counter ∧
      (sm4_gcm_update_loop E ctxD (sm4_gcm_update_loop E ctxE input).2).1.ghash_state =
        (sm4_gcm_update_loop E ctxE input).1.ghash_state := by
  intro n
  induction n with
  | zero =>
    intro input ctxE ctxD hle hh hc hg hmE hmD
    obtain rfl : input = [] := List.eq_nil_of_length_eq_zero (by omega)
    rw [sm4_gcm_update_loop_nil E ctxE, sm4_gcm_update_loop_nil E ctxD]
    exact ⟨rfl, hc.symm, hg.symm⟩
  | succ n ih =>
    intro input ctxE ctxD hle hh hc hg hmE hmD
    by_cases hnil : input = []
    · subst hnil
      rw [sm4_gcm_update_loop_nil E ctxE, sm4_gcm_update_loop_nil E ctxD]
      exact ⟨rfl, hc.symm, hg.symm⟩
    have hpos : 0 < input.length := List.length_pos.mpr hnil
    rw [sm4_gcm_update_loop_cons E ctxE input hnil]
    set out := List.zipWith bxor (input.take 16) (E (gcm_increment_counter ctxE.counter))
      with hout
    set restE := (sm4_gcm_update_loop E (gcmLoopNext E ctxE input) (input.drop 16)).2
      with hrest
    have houtlen : out.length = min 16 input.length := by
      rw [hout, List.length_zipWith, List.length_take, hE]
      omega
    have houtpos : 0 < out.length := by omega
    have hne : out ++ restE ≠ [] := by
      intro hcontra
      have := congrArg List.length hcontra
      simp only [List.length_append, List.length_nil] at this
      omega
    have htake : (out ++ restE).take 16 = out := by
      rcases Nat.lt_or_ge input.length 16 with hsmall | hbig
      · have hre : restE = [] := by
          rw [hrest, List.drop_eq_nil_of_le (by omega), sm4_gcm_update_loop_nil]
        rw [hre, List.append_nil, List.take_of_length_le (by omega)]
      · exact List.take_left' (by omega)
    have hdrop : (out ++ restE).drop 16 = restE := by
      rcases Nat.lt_or_ge input.length 16 with hsmall | hbig
      · have hre : restE = [] := by
          rw [hrest, List.drop_eq_nil_of_le (by omega), sm4_gcm_update_loop_nil]
        rw [hre, List.append_nil, List.drop_eq_nil_of_le (by omega)]
      · exact List.drop_left' (by omega)
    rw [sm4_gcm_update_loop_cons E ctxD (out ++ restE) hne]
    have hdecOut : List.zipWith bxor ((out ++ restE).take 16)
        (E (gcm_increment_counter ctxD.counter)) = input.take 16 := by
      rw [htake, ← hc, hout]
      exact zipWith_bxor_cancel _ _ (by rw [List.length_take, hE]; omega)
    have hh' : (gcmLoopNext E ctxE input).h = (gcmLoopNext E ctxD (out ++ restE)).h := hh
    have hc' : (gcmLoopNext E ctxE input).counter =
        (gcmLoopNext E ctxD (out ++ restE)).counter := by
      show gcm_increment_counter ctxE.counter = gcm_increment_counter ctxD.counter
      rw [hc]
    have hg' : (gcmLoopNext E ctxE input).ghash_state =
        (gcmLoopNext E ctxD (out ++ restE)).ghash_state := by
      show ghash ctxE.h
          (pad16 (if ctxE.mode = 1 then
             List.zipWith bxor (input.take 16) (E (gcm_increment_counter ctxE.counter))
           else input.take 16)) ctxE.ghash_state =
        ghash ctxD.h
          (pad16 (if ctxD.mode = 1 then
             List.zipWith bxor ((out ++ restE).take 16) (E (gcm_increment_counter ctxD.counter))
           else (out ++ restE).take 16)) ctxD.ghash_state
      rw [hmE, hmD, if_pos (rfl : (1 : Nat) = 1), if_neg (show ¬(0 : Nat) = 1 by decide),
        htake, hh, hg, hout]
    have hmE' : (gcmLoopNext E ctxE input).mode = 1 := hmE
    have hmD' : (gcmLoopNext E ctxD (out ++ restE)).mode = 0 := hmD
    obtain ⟨ih1, ih2, ih3⟩ := ih (input.drop 16) (gcmLoopNext E ctxE input)
      (gcmLoopNext E ctxD (out ++ restE)) (by simp only [List.length_drop]; omega)
      hh' hc' hg' hmE' hmD'
    rw [← hrest] at ih1 ih2 ih3
    rw [hdrop, hdecOut, ih1, ih2, ih3]
    exact ⟨List.take_append_drop 16 input, rfl, rfl⟩

theorem sm4_gcm_update_ad_h (ctx : GcmCtx) (aad : List Byte) :
    (sm4_gcm_update_ad ctx aad).h = ctx.h := by
  unfold sm4_gcm_update_ad
  split <;> rfl

theorem sm4_gcm_update_ad_j0 (ctx : GcmCtx) (aad : List Byte) :
    (sm4_gcm_update_ad ctx aad).j0 = ctx.j0 := by
  unfold sm4_gcm_update_ad
  split <;> rfl

theorem sm4_gcm_update_ad_counter (ctx : GcmCtx) (aad : List Byte) :
    (sm4_gcm_update_ad ctx aad).counter = ctx.counter := by
  unfold sm4_gcm_update_ad
  split <;> rfl

theorem sm4_gcm_update_ad_mode (ctx : GcmCtx) (aad : List Byte) :
    (sm4_gcm_update_ad ctx aad).mode = ctx.mode := by
  unfold sm4_gcm_update_ad
  split <;> rfl

theorem sm4_gcm_update_ad_clen (ctx : GcmCtx) (aad : List Byte) :
    (sm4_gcm_update_ad ctx aad).ciphertext_len = ctx.ciphertext_len := by
  unfold sm4_gcm_update_ad
  split <;> rfl

theorem sm4_gcm_update_ad_aadlen (ctx : GcmCtx) (aad : List Byte) :
    (sm4_gcm_update_ad ctx aad).aad_len =
      if aad.length = 0 then ctx.aad_len else (ctx.aad_len + aad.length) % 2 ^ 64 := by
  unfold sm4_gcm_update_ad
  split <;> simp_all

theorem sm4_gcm_update_ad_ghs (ctx : GcmCtx) (aad : List Byte) :
    (sm4_gcm_update_ad ctx aad).ghash_state =
      if aad.length = 0 then ctx.ghash_state else ghash ctx.h aad ctx.ghash_state := by
  unfold sm4_gcm_update_ad
  split <;> simp_all

theorem gcm_diff_eq_zero (tag computed : List Byte) :
    ∀ n, (∀ i, i < n → tag.getD i 0 = computed.getD i 0) →
    (List.range n).foldl
      (fun d i => d ||| ((tag.getD i 0).val ^^^ (computed.getD i 0).val)) 0 = 0 := by
  intro n
  induction n with
  | zero => intro _; rfl
  | succ n ih =>
    intro h
    rw [List.range_succ, List.foldl_append, ih (fun i hi => h i (by omega))]
    show 0 ||| ((tag.getD n 0).val ^^^ (computed.getD n 0).val) = 0
    rw [h n (by omega), Nat.xor_self, Nat.or_zero]

theorem gcm_tag_diff_zero (full buf1 buf2 : List Byte) (n : Nat) (hn : n ≤ full.length) :
    (List.range n).foldl
      (fun d i => d |||
        (((List.take n full ++ buf1).getD i 0).val ^^^
          ((List.take n full ++ buf2).getD i 0).val)) 0 = 0 := by
  apply gcm_diff_eq_zero
  intro i hi
  have hlen : i < (List.take n full).length := by
    rw [List.length_take]
    omega
  rw [List.getD_append _ _ _ _ hlen, List.getD_append _ _ _ _ hlen]

/-- C4: GCM round-trips: for every block cipher `E` on 16-byte blocks (the
SM4 primitive is absent from the sources, so the pipeline is verified for an
arbitrary `E`), every IV, AAD, plaintext and tag length at most 16,
decrypting the ciphertext and tag produced by `sm4_gcm_encrypt` with
`sm4_gcm_decrypt` under the same parameters succeeds (returns 0) and yields
exactly the plaintext. -/
theorem sm4_gcm_roundtrip (E : List Byte → List Byte) (hE : ∀ b, (E b).length = 16)
    (iv aad plaintext tagBuf : List Byte) (tag_len : Nat) (htl : tag_len ≤ 16) :
    sm4_gcm_decrypt E iv aad
      (sm4_gcm_encrypt E iv aad plaintext tagBuf tag_len).1
      (sm4_gcm_encrypt E iv aad plaintext tagBuf tag_len).2.1 tag_len
    = (plaintext, 0) := by
  simp only [sm4_gcm_encrypt, sm4_gcm_decrypt, sm4_gcm_update, sm4_gcm_finish]
  set A := sm4_gcm_update_ad (sm4_gcm_starts (sm4_gcm_init E) 1 iv) aad with hA
  set B := sm4_gcm_update_ad (sm4_gcm_starts (sm4_gcm_init E) 0 iv) aad with hB
  set L := sm4_gcm_update_loop E A plaintext with hL
  set Dv := sm4_gcm_update_loop E B L.2 with hDvdef
  have hABh : A.h = B.h := by
    rw [hA, hB, sm4_gcm_update_ad_h, sm4_gcm_update_ad_h]
    rfl
  have hABc : A.counter = B.counter := by
    rw [hA, hB, sm4_gcm_update_ad_counter, sm4_gcm_update_ad_counter]
    rfl
  have hABj : A.j0 = B.j0 := by
    rw [hA, hB, sm4_gcm_update_ad_j0, sm4_gcm_update_ad_j0]
    rfl
  have hABg : A.ghash_state = B.ghash_state := by
    rw [hA, hB, sm4_gcm_update_ad_ghs, sm4_gcm_update_ad_ghs]
    by_cases haad : aad.length = 0
    · rw [if_pos haad, if_pos haad]
      rfl
    · rw [if_neg haad, if_neg haad]
      rfl
  have hABa : A.aad_len = B.aad_len := by
    rw [hA, hB, sm4_gcm_update_ad_aadlen, sm4_gcm_update_ad_aadlen]
    by_cases haad : aad.length = 0
    · rw [if_pos haad, if_pos haad]
      rfl
    · rw [if_neg haad, if_neg haad]
      rfl
  have hABcl : A.ciphertext_len = B.ciphertext_len := by
    rw [hA, hB, sm4_gcm_update_ad_clen, sm4_gcm_update_ad_clen]
    rfl
  have hAm : A.mode = 1 := by
    rw [hA, sm4_gcm_update_ad_mode]
    rfl
  have hBm : B.mode = 0 := by
    rw [hB, sm4_gcm_update_ad_mode]
    rfl
  have hAhlen : A.h.length = 16 := by
    rw [hA, sm4_gcm_update_ad_h]
    exact hE _
  have hAglen : A.ghash_state.length = 16 := by
    rw [hA, sm4_gcm_update_ad_ghs]
    by_cases haad : aad.length = 0
    · rw [if_pos haad]
      rfl
    · rw [if_neg haad]
      exact ghash_len _ _ _ (hE _) rfl
  have hrt := gcm_loop_roundtrip_aux E hE plaintext.length plaintext A B le_rfl
    hABh hABc hABg hAm hBm
  rw [← hL, ← hDvdef] at hrt
  obtain ⟨hD2, hDc, hDg⟩ := hrt
  have hLfields := sm4_gcm_update_loop_fields E plaintext.length plaintext A le_rfl
  rw [← hL] at hLfields
  obtain ⟨hLh, hLj, hLa, hLcl, hLm⟩ := hLfields
  have hDfields := sm4_gcm_update_loop_fields E L.2.length L.2 B le_rfl
  rw [← hDvdef] at hDfields
  obtain ⟨hDh, hDj, hDa, hDcl, hDm⟩ := hDfields
  have hct : L.2.length = plaintext.length := by
    have h1 := sm4_gcm_update_loop_out_len E hE plaintext.length plaintext A le_rfl
    rw [← hL] at h1
    exact h1
  have hLglen : L.1.ghash_state.length = 16 := by
    have h1 := sm4_gcm_update_loop_ghs_len E plaintext.length plaintext A le_rfl hAhlen hAglen
    rw [← hL] at h1
    exact h1
  set FE := List.zipWith bxor
      (ghash L.1.h
        (storeW64 (L.1.aad_len * 8 % 2 ^ 64) ++
          storeW64 ((A.ciphertext_len + plaintext.length) % 2 ^ 64 * 8 % 2 ^ 64))
        L.1.ghash_state)
      (E L.1.j0) with hFE
  have hfull : List.zipWith bxor
      (ghash Dv.1.h
        (storeW64 (Dv.1.aad_len * 8 % 2 ^ 64) ++
          storeW64 ((B.ciphertext_len + L.2.length) % 2 ^ 64 * 8 % 2 ^ 64))
        Dv.1.ghash_state)
      (E Dv.1.j0) = FE := by
    rw [hFE, hDh, hDj, hDa, hDg, hct, ← hABh, ← hABj, ← hABa, ← hABcl, hLh, hLj, hLa]
  have hs : (ghash L.1.h
      (storeW64 (L.1.aad_len * 8 % 2 ^ 64) ++
        storeW64 ((A.ciphertext_len + plaintext.length) % 2 ^ 64 * 8 % 2 ^ 64))
      L.1.ghash_state).length = 16 :=
    ghash_len _ _ _ (by rw [hLh]; exact hAhlen) hLglen
  have hFElen : FE.length = 16 := by
    rw [hFE, List.length_zipWith, hs, hE]
    omega
  have htagle : tag_len ≤ FE.length := by
    rw [hFElen]
    exact htl
  have hmin : min 16 tag_len = tag_len := min_eq_right htl
  rw [hfull, hmin]
  rw [gcm_tag_diff_zero FE (List.drop tag_len tagBuf)
    (List.drop tag_len (List.replicate 16 0)) tag_len htagle]
  rw [if_neg (fun hcon => hcon rfl)]
  rw [hD2]

/-- Witness for C4 at a concrete input: the constant-zero block cipher,
a 1-byte IV, 1-byte AAD, a 2-byte plaintext and a 16-byte tag. -/
theorem sm4_gcm_roundtrip_witness :
    (∀ b, ((fun _ : List Byte => List.replicate 16 (0 : Byte)) b).length = 16) ∧
    (16 : Nat) ≤ 16 ∧
    sm4_gcm_decrypt (fun _ => List.replicate 16 (0 : Byte)) [byteOf 1] [byteOf 2]
      (sm4_gcm_encrypt (fun _ => List.replicate 16 (0 : Byte)) [byteOf 1] [byteOf 2]
        [byteOf 0x68, byteOf 0x69] (List.replicate 16 (0 : Byte)) 16).1
      (sm4_gcm_encrypt (fun _ => List.replicate 16 (0 : Byte)) [byteOf 1] [byteOf 2]
        [byteOf 0x68, byteOf 0x69] (List.replicate 16 (0 : Byte)) 16).2.1 16
    = ([byteOf 0x68, byteOf 0x69], 0) :=
  ⟨fun _ => rfl, by decide,
    sm4_gcm_roundtrip (fun _ => List.replicate 16 (0 : Byte)) (fun _ => rfl)
      [byteOf 1] [byteOf 2] [byteOf 0x68, byteOf 0x69]
      (List.replicate 16 (0 : Byte)) 16 (by decide)⟩

/-! ### Structural (fuel-driven) evaluators for the recursive functions,
used to evaluate concrete instances. -/

def ghashGo : Nat → List Byte → List Byte → List Byte → List Byte
  | 0, _, _, ghs => ghs
  | fuel+1, h, data, ghs =>
    if data = [] then ghs
    else ghashGo fuel h (data.drop 16) (gf128_mul (xor16 ghs (pad16 (data.take 16))) h)

theorem ghashGo_eq (h : List Byte) : ∀ fuel (data ghs : List Byte), data.length ≤ fuel →
    ghashGo fuel h data ghs = ghash h data ghs := by
  intro fuel
  induction fuel with
  | zero =>
    intro data ghs hle
    obtain rfl : data = [] := List.eq_nil_of_length_eq_zero (by omega)
    rw [ghash_nil]
    rfl
  | succ n ih =>
    intro data ghs hle
    by_cases hnil : data = []
    · subst hnil
      rw [ghash_nil]
      rfl
    · rw [ghash_cons _ _ _ hnil]
      show (if data = [] then ghs else ghashGo n h (data.drop 16) _) = _
      rw [if_neg hnil]
      have hpos : 0 < data.length := List.length_pos.mpr hnil
      exact ih _ _ (by simp only [List.length_drop]; omega)

theorem ghash_eq_go (h data ghs : List Byte) :
    ghash h data ghs = ghashGo data.length h data ghs :=
  (ghashGo_eq h data.length data ghs le_rfl).symm

def gcmLoopGo (E : List Byte → List Byte) : Nat → GcmCtx → List Byte → GcmCtx × List Byte
  | 0, ctx, _ => (ctx, [])
  | fuel+1, ctx, input =>
    if input = [] then (ctx, [])
    else
      let counter' := gcm_increment_counter ctx.counter
      let keystream := E counter'
      let chunk := input.take 16
      let out := List.zipWith bxor chunk keystream
      let cipher_block := pad16 (if ctx.mode = 1 then out else chunk)
      let ctx' := { ctx with counter := counter',
                             ghash_state := ghashGo cipher_block.length ctx.h cipher_block
                               ctx.ghash_state }
      let r := gcmLoopGo E fuel ctx' (input.drop 16)
      (r.1, out ++ r.2)

theorem gcmLoopGo_eq (E : List Byte → List Byte) :
    ∀ fuel (ctx : GcmCtx) (input : List Byte), input.length ≤ fuel →
      gcmLoopGo E fuel ctx input = sm4_gcm_update_loop E ctx input := by
  intro fuel
  induction fuel with
  | zero =>
    intro ctx input hle
    obtain rfl : input = [] := List.eq_nil_of_length_eq_zero (by omega)
    rw [sm4_gcm_update_loop_nil]
    rfl
  | succ n ih =>
    intro ctx input hle
    by_cases hnil : input = []
    · subst hnil
      rw [sm4_gcm_update_loop_nil]
      rfl
    · rw [sm4_gcm_update_loop_cons E ctx input hnil]
      show (if input = [] then (ctx, []) else _) = _
      rw [if_neg hnil]
      have hpos : 0 < input.length := List.length_pos.mpr hnil
      simp only [gcmLoopNext, ← ghash_eq_go]
      rw [ih _ _ (by simp only [List.length_drop]; omega)]

theorem sm4_gcm_update_loop_eq_go (E : List Byte → List Byte) (ctx : GcmCtx)
    (input : List Byte) :
    sm4_gcm_update_loop E ctx input = gcmLoopGo E input.length ctx input :=
  (gcmLoopGo_eq E input.length ctx input le_rfl).symm

theorem sm3_compressBlocks_eq_go (st : List Nat) (d : List Byte) :
    sm3_compressBlocks st d = sm3_compressBlocksGo d.length st d := rfl

/-! ### C3: authentication failure zeroes the plaintext -/

theorem or_ne_zero_of_left (x y : Nat) (hx : x ≠ 0) : x ||| y ≠ 0 := by
  intro h
  apply hx
  apply Nat.eq_of_testBit_eq
  intro i
  have hbit := congrArg (fun t => t.testBit i) h
  simp only [Nat.testBit_or, Nat.zero_testBit, Bool.or_eq_false_iff] at hbit
  simp [hbit.1, Nat.zero_testBit]

theorem or_ne_zero_of_right (x y : Nat) (hy : y ≠ 0) : x ||| y ≠ 0 := by
  intro h
  apply hy
  apply Nat.eq_of_testBit_eq
  intro i
  have hbit := congrArg (fun t => t.testBit i) h
  simp only [Nat.testBit_or, Nat.zero_testBit, Bool.or_eq_false_iff] at hbit
  simp [hbit.2, Nat.zero_testBit]

theorem gcm_diff_ne_zero (tag computed : List Byte) :
    ∀ n i, i < n → tag.getD i 0 ≠ computed.getD i 0 →
    (List.range n).foldl
      (fun d i => d ||| ((tag.getD i 0).val ^^^ (computed.getD i 0).val)) 0 ≠ 0 := by
  intro n
  induction n with
  | zero => intro i hi; omega
  | succ n ih =>
    intro i hi hne
    rw [List.range_succ, List.foldl_append]
    by_cases hlt : i < n
    · exact or_ne_zero_of_left _ _ (ih i hlt hne)
    · obtain rfl : i = n := by omega
      apply or_ne_zero_of_right
      intro h0
      exact hne (Fin.ext (Nat.xor_eq_zero.mp h0))

/-- C3: whenever the tag recomputed by `sm4_gcm_decrypt` differs from the
supplied tag at some byte among the `tag_len` compared ones, the function
returns an all-zero plaintext buffer of the ciphertext's length together
with the -1 (authentication failed) return code — never partially
decrypted data. -/
theorem sm4_gcm_decrypt_auth_failure (E : List Byte → List Byte)
    (iv aad ciphertext tag : List Byte) (tag_len i : Nat) (hi : i < tag_len)
    (hne : tag.getD i 0 ≠ (sm4_gcm_recomputed_tag E iv aad ciphertext tag_len).getD i 0) :
    sm4_gcm_decrypt E iv aad ciphertext tag tag_len =
      (List.replicate ciphertext.length (0 : Byte), -1) := by
  have hdiff := gcm_diff_ne_zero tag (sm4_gcm_recomputed_tag E iv aad ciphertext tag_len)
    tag_len i hi hne
  simp only [sm4_gcm_recomputed_tag] at hdiff
  simp only [sm4_gcm_decrypt]
  rw [if_pos hdiff]

/-- Witness for C3 at a concrete input: the constant-zero block cipher with
empty IV, AAD and ciphertext and the wrong one-byte tag `[0x01]`. -/
theorem sm4_gcm_decrypt_auth_failure_witness :
    ((0 : Nat) < 1) ∧
    ([byteOf 1].getD 0 0 ≠
      (sm4_gcm_recomputed_tag (fun _ => List.replicate 16 (0 : Byte)) [] [] [] 1).getD 0 0) ∧
    sm4_gcm_decrypt (fun _ => List.replicate 16 (0 : Byte)) [] [] [] [byteOf 1] 1 =
      (List.replicate (List.length ([] : List Byte)) (0 : Byte), -1) :=
  ⟨by decide,
    by
      simp only [sm4_gcm_recomputed_tag, sm4_gcm_starts, sm4_gcm_init, sm4_gcm_update_ad,
        sm4_gcm_update, sm4_gcm_finish, ghash_eq_go, sm4_gcm_update_loop_eq_go]
      decide,
    sm4_gcm_decrypt_auth_failure (fun _ => List.replicate 16 (0 : Byte)) [] [] [] [byteOf 1]
      1 0 (by decide)
      (by
        simp only [sm4_gcm_recomputed_tag, sm4_gcm_starts, sm4_gcm_init, sm4_gcm_update_ad,
          sm4_gcm_update, sm4_gcm_finish, ghash_eq_go, sm4_gcm_update_loop_eq_go]
        decide)⟩

/-! ### C10: finish caps the tag at 16 bytes -/

/-- C10: for `tag_len > 16`, `sm4_gcm_finish` writes only the first 16 tag
bytes (the GHASH accumulator after the length block, XORed with `E(J0)`),
leaves the rest of the caller's tag buffer unchanged, and still returns 0
(no error for the over-long request). -/
theorem sm4_gcm_finish_caps_tag (E : List Byte → List Byte) (hE : ∀ b, (E b).length = 16)
    (ctx : GcmCtx) (tagBuf : List Byte) (tag_len : Nat) (h16 : 16 < tag_len)
    (hh : ctx.h.length = 16) (hg : ctx.ghash_state.length = 16) :
    (sm4_gcm_finish E ctx tagBuf tag_len).1.take 16 =
      List.zipWith bxor
        (ghash ctx.h
          (storeW64 (ctx.aad_len * 8 % 2 ^ 64) ++ storeW64 (ctx.ciphertext_len * 8 % 2 ^ 64))
          ctx.ghash_state)
        (E ctx.j0) ∧
    (sm4_gcm_finish E ctx tagBuf tag_len).1.drop 16 = tagBuf.drop 16 ∧
    (sm4_gcm_finish E ctx tagBuf tag_len).2 = 0 := by
  have hs : (ghash ctx.h
      (storeW64 (ctx.aad_len * 8 % 2 ^ 64) ++ storeW64 (ctx.ciphertext_len * 8 % 2 ^ 64))
      ctx.ghash_state).length = 16 := ghash_len _ _ _ hh hg
  have hfl : (List.zipWith bxor
      (ghash ctx.h
        (storeW64 (ctx.aad_len * 8 % 2 ^ 64) ++ storeW64 (ctx.ciphertext_len * 8 % 2 ^ 64))
        ctx.ghash_state)
      (E ctx.j0)).length = 16 := by
    rw [List.length_zipWith, hs, hE]
    omega
  have hmin : min 16 tag_len = 16 := min_eq_left (by omega)
  simp only [sm4_gcm_finish]
  rw [hmin, List.take_of_length_le (le_of_eq hfl)]
  exact ⟨List.take_left' hfl, List.drop_left' hfl, trivial⟩

/-- Witness for C10 at a concrete input: the constant-zero block cipher, an
all-zero context, a 20-byte tag buffer of 0x07 bytes and `tag_len = 20`. -/
theorem sm4_gcm_finish_caps_tag_witness :
    (∀ b, ((fun _ : List Byte => List.replicate 16 (0 : Byte)) b).length = 16) ∧
    (16 : Nat) < 20 ∧
    (⟨List.replicate 16 (0 : Byte), List.replicate 16 (0 : Byte), List.replicate 16 (0 : Byte),
      List.replicate 16 (0 : Byte), 0, 0, 1⟩ : GcmCtx).h.length = 16 ∧
    (⟨List.replicate 16 (0 : Byte), List.replicate 16 (0 : Byte), List.replicate 16 (0 : Byte),
      List.replicate 16 (0 : Byte), 0, 0, 1⟩ : GcmCtx).ghash_state.length = 16 ∧
    ((sm4_gcm_finish (fun _ => List.replicate 16 (0 : Byte))
        ⟨List.replicate 16 (0 : Byte), List.replicate 16 (0 : Byte), List.replicate 16 (0 : Byte),
         List.replicate 16 (0 : Byte), 0, 0, 1⟩ (List.replicate 20 (byteOf 7)) 20).1.take 16 =
      List.zipWith bxor
        (ghash (List.replicate 16 (0 : Byte))
          (storeW64 (0 * 8 % 2 ^ 64) ++ storeW64 (0 * 8 % 2 ^ 64))
          (List.replicate 16 (0 : Byte)))
        (List.replicate 16 (0 : Byte)) ∧
    (sm4_gcm_finish (fun _ => List.replicate 16 (0 : Byte))
        ⟨List.replicate 16 (0 : Byte), List.replicate 16 (0 : Byte), List.replicate 16 (0 : Byte),
         List.replicate 16 (0 : Byte), 0, 0, 1⟩ (List.replicate 20 (byteOf 7)) 20).1.drop 16 =
      (List.replicate 20 (byteOf 7)).drop 16 ∧
    (sm4_gcm_finish (fun _ => List.replicate 16 (0 : Byte))
        ⟨List.replicate 16 (0 : Byte), List.replicate 16 (0 : Byte), List.replicate 16 (0 : Byte),
         List.replicate 16 (0 : Byte), 0, 0, 1⟩ (List.replicate 20 (byteOf 7)) 20).2 = 0) :=
  ⟨fun _ => rfl, by decide, by decide, by decide,
    sm4_gcm_finish_caps_tag (fun _ => List.replicate 16 (0 : Byte)) (fun _ => rfl)
      ⟨List.replicate 16 (0 : Byte), List.replicate 16 (0 : Byte), List.replicate 16 (0 : Byte),
       List.replicate 16 (0 : Byte), 0, 0, 1⟩ (List.replicate 20 (byteOf 7)) 20
      (by decide) (by decide) (by decide)⟩

/-! ### C5: the counter increment touches only the low 32 bits -/

/-- The counter update that the source actually performs, generalized from
incrementing to adding `n`: add to the rightmost 32 bits only (big-endian,
wrapping mod `2^32`), leaving bytes 0-11 untouched. -/
def counter_add_low32 (c : List Byte) (n : Nat) : List Byte :=
  c.take 12 ++
    storeW32 ((loadB (c.getD 12 0) (c.getD 13 0) (c.getD 14 0) (c.getD 15 0) + n) % 2 ^ 32)

/-- Modelled from the spec: the value of a byte string read as a big-endian
integer. -/
def beBytesToNat (l : List Byte) : Nat := l.foldl (fun a b => a * 256 + b.val) 0

/-- Modelled from the spec: a 128-bit integer written as 16 big-endian
bytes. -/
def natToBeBytes16 (n : Nat) : List Byte :=
  (List.range 16).map (fun i => byteOf (n >>> (8 * (15 - i))))

/-- Modelled from the spec: counter addition as a 128-bit big-endian
integer — the behaviour claim C5 asserts for `gcm_increment_counter`. -/
def counter_add_128 (c : List Byte) (n : Nat) : List Byte :=
  natToBeBytes16 ((beBytesToNat c + n) % 2 ^ 128)

theorem counter_add_low32_len (c : List Byte) (hc : c.length = 16) (n : Nat) :
    (counter_add_low32 c n).length = 16 := by
  simp [counter_add_low32, storeW32]
  omega

theorem counter_add_low32_append (p : List Byte) (hp : p.length = 12) (x : Nat)
    (hx : x < 2 ^ 32) (m : Nat) :
    counter_add_low32 (p ++ storeW32 x) m = p ++ storeW32 ((x + m) % 2 ^ 32) := by
  have h12 : (p ++ storeW32 x).getD 12 0 = byteOf (x >>> 24) := by
    rw [List.getD_append_right _ _ _ _ (by omega), show 12 - p.length = 0 from by omega]
    rfl
  have h13 : (p ++ storeW32 x).getD 13 0 = byteOf (x >>> 16) := by
    rw [List.getD_append_right _ _ _ _ (by omega), show 13 - p.length = 1 from by omega]
    rfl
  have h14 : (p ++ storeW32 x).getD 14 0 = byteOf (x >>> 8) := by
    rw [List.getD_append_right _ _ _ _ (by omega), show 14 - p.length = 2 from by omega]
    rfl
  have h15 : (p ++ storeW32 x).getD 15 0 = byteOf x := by
    rw [List.getD_append_right _ _ _ _ (by omega), show 15 - p.length = 3 from by omega]
    rfl
  simp only [counter_add_low32]
  rw [List.take_left' hp, h12, h13, h14, h15, loadB_storeW32 x hx]

theorem counter_add_low32_add (c : List Byte) (hc : c.length = 16) (n m : Nat) :
    counter_add_low32 (counter_add_low32 c n) m = counter_add_low32 c (n + m) := by
  have hx : (loadB (c.getD 12 0) (c.getD 13 0) (c.getD 14 0) (c.getD 15 0) + n) % 2 ^ 32
      < 2 ^ 32 := Nat.mod_lt _ (by norm_num)
  have h1 : counter_add_low32 c n = c.take 12 ++
      storeW32 ((loadB (c.getD 12 0) (c.getD 13 0) (c.getD 14 0) (c.getD 15 0) + n) % 2 ^ 32) :=
    rfl
  rw [h1, counter_add_low32_append (c.take 12) (by rw [List.length_take]; omega) _ hx m,
    Nat.mod_add_mod, Nat.add_assoc]
  rfl

theorem gcm_loop_chunk_aux (E : List Byte → List Byte) (hE : ∀ b, (E b).length = 16) :
    ∀ (N : Nat) (ctx : GcmCtx) (input : List Byte), input.length ≤ N →
      ctx.counter.length = 16 →
      ∀ k, 16 * k < input.length →
        ((sm4_gcm_update_loop E ctx input).2.drop (16 * k)).take 16 =
          List.zipWith bxor ((input.drop (16 * k)).take 16)
            (E (counter_add_low32 ctx.counter (k + 1))) := by
  intro N
  induction N with
  | zero => intro ctx input hle hc k hk; omega
  | succ N ih =>
    intro ctx input hle hc k hk
    have hnil : input ≠ [] := by
      intro h
      subst h
      simp only [List.length_nil] at hk
      omega
    have hpos : 0 < input.length := List.length_pos.mpr hnil
    rw [sm4_gcm_update_loop_cons E ctx input hnil]
    set out := List.zipWith bxor (input.take 16) (E (gcm_increment_counter ctx.counter))
      with hout
    set rest := (sm4_gcm_update_loop E (gcmLoopNext E ctx input) (input.drop 16)).2
      with hrest
    have houtlen : out.length = min 16 input.length := by
      rw [hout, List.length_zipWith, List.length_take, hE]
      omega
    cases k with
    | zero =>
      simp only [Nat.mul_zero, List.drop_zero]
      have htake : (out ++ rest).take 16 = out := by
        rcases Nat.lt_or_ge input.length 16 with hsmall | hbig
        · have hre : rest = [] := by
            rw [hrest, List.drop_eq_nil_of_le (by omega), sm4_gcm_update_loop_nil]
          rw [hre, List.append_nil, List.take_of_length_le (by omega)]
        · exact List.take_left' (by omega)
      rw [htake, hout]
      rfl
    | succ k =>
      have h17 : 16 < input.length := by omega
      have houtlen16 : out.length = 16 := by omega
      rw [show (out ++ rest).drop (16 * (k + 1)) = rest.drop (16 * k) from by
        rw [show 16 * (k + 1) = out.length + 16 * k from by rw [houtlen16]; ring]
        exact List.drop_append _]
      have hc' : (gcmLoopNext E ctx input).counter.length = 16 := by
        show (gcm_increment_counter ctx.counter).length = 16
        exact counter_add_low32_len ctx.counter hc 1
      have hrec := ih (gcmLoopNext E ctx input) (input.drop 16)
        (by simp only [List.length_drop]; omega) hc' k
        (by simp only [List.length_drop]; omega)
      rw [← hrest] at hrec
      rw [hrec, List.drop_drop, show 16 + 16 * k = 16 * (k + 1) from by ring,
        show (gcmLoopNext E ctx input).counter = counter_add_low32 ctx.counter 1 from rfl,
        counter_add_low32_add ctx.counter hc 1 (k + 1),
        show 1 + (k + 1) = k + 1 + 1 from by ring]

/-- C5 (amended): in the GCM block loop the counter is incremented before
each chunk's keystream is produced, so the counter block encrypted for the
k-th 16-byte chunk (0-based, last chunk possibly partial) is the initial
counter plus `k+1` — but the addition is carried out only in the rightmost
32 bits (big-endian, wrapping mod `2^32`, bytes 0-11 untouched), not as a
128-bit big-endian integer as claimed. -/
theorem sm4_gcm_update_counter_low32 (E : List Byte → List Byte)
    (hE : ∀ b, (E b).length = 16) (ctx : GcmCtx) (input : List Byte)
    (hc : ctx.counter.length = 16) (k : Nat) (hk : 16 * k < input.length) :
    ((sm4_gcm_update_loop E ctx input).2.drop (16 * k)).take 16 =
      List.zipWith bxor ((input.drop (16 * k)).take 16)
        (E (counter_add_low32 ctx.counter (k + 1))) :=
  gcm_loop_chunk_aux E hE input.length ctx input le_rfl hc k hk

/-- C5 (counterexample): `gcm_increment_counter` is not 128-bit big-endian
addition of 1: at the counter `J0 = 00..00 01 ff ff ff ff` the low 32 bits
wrap to zero without carrying into byte 11, whereas adding 1 as a 128-bit
big-endian integer yields `00..00 02 00 00 00 00`. -/
theorem gcm_increment_counter_not_128bit :
    gcm_increment_counter
        [0, 0, 0, 0, 0, 0, 0, 0, 0, 0, 0, byteOf 1, byteOf 255, byteOf 255, byteOf 255,
          byteOf 255] =
      [0, 0, 0, 0, 0, 0, 0, 0, 0, 0, 0, byteOf 1, 0, 0, 0, 0] ∧
    counter_add_128
        [0, 0, 0, 0, 0, 0, 0, 0, 0, 0, 0, byteOf 1, byteOf 255, byteOf 255, byteOf 255,
          byteOf 255] 1 =
      [0, 0, 0, 0, 0, 0, 0, 0, 0, 0, 0, byteOf 2, 0, 0, 0, 0] ∧
    gcm_increment_counter
        [0, 0, 0, 0, 0, 0, 0, 0, 0, 0, 0, byteOf 1, byteOf 255, byteOf 255, byteOf 255,
          byteOf 255] ≠
      counter_add_128
        [0, 0, 0, 0, 0, 0, 0, 0, 0, 0, 0, byteOf 1, byteOf 255, byteOf 255, byteOf 255,
          byteOf 255] 1 := by
  decide

/-- Witness for C5 (amended) at a concrete input: a 16-byte message, the
first chunk, and a counter whose low 32 bits are about to wrap. -/
theorem sm4_gcm_update_counter_low32_witness :
    (∀ b, ((fun b : List Byte => (b ++ List.replicate 16 (0 : Byte)).take 16) b).length = 16) ∧
    (⟨List.replicate 16 (0 : Byte), List.replicate 16 (0 : Byte),
      [0, 0, 0, 0, 0, 0, 0, 0, 0, 0, 0, byteOf 1, byteOf 255, byteOf 255, byteOf 255,
        byteOf 255], List.replicate 16 (0 : Byte), 0, 0, 1⟩ : GcmCtx).counter.length = 16 ∧
    16 * 0 < (List.replicate 16 (byteOf 3)).length ∧
    ((sm4_gcm_update_loop (fun b : List Byte => (b ++ List.replicate 16 (0 : Byte)).take 16)
        ⟨List.replicate 16 (0 : Byte), List.replicate 16 (0 : Byte),
         [0, 0, 0, 0, 0, 0, 0, 0, 0, 0, 0, byteOf 1, byteOf 255, byteOf 255, byteOf 255,
           byteOf 255], List.replicate 16 (0 : Byte), 0, 0, 1⟩
        (List.replicate 16 (byteOf 3))).2.drop (16 * 0)).take 16 =
      List.zipWith bxor (((List.replicate 16 (byteOf 3)).drop (16 * 0)).take 16)
        ((fun b : List Byte => (b ++ List.replicate 16 (0 : Byte)).take 16)
          (counter_add_low32
            [0, 0, 0, 0, 0, 0, 0, 0, 0, 0, 0, byteOf 1, byteOf 255, byteOf 255, byteOf 255,
              byteOf 255] (0 + 1))) :=
  ⟨fun b => by
      simp only [List.length_take, List.length_append, List.length_replicate]
      omega,
    by decide, by decide,
    sm4_gcm_update_counter_low32
      (fun b : List Byte => (b ++ List.replicate 16 (0 : Byte)).take 16)
      (fun b => by
        simp only [List.length_take, List.length_append, List.length_replicate]
        omega)
      ⟨List.replicate 16 (0 : Byte), List.replicate 16 (0 : Byte),
       [0, 0, 0, 0, 0, 0, 0, 0, 0, 0, 0, byteOf 1, byteOf 255, byteOf 255, byteOf 255,
         byteOf 255], List.replicate 16 (0 : Byte), 0, 0, 1⟩
      (List.replicate 16 (byteOf 3)) (by decide) 0 (by decide)⟩

/-! ### Merkle tree (from `merkle_tree.c`) -/

/-- `hash_leaf`: RFC 6962 leaf hash `SM3(0x00 || data)` computed through
the streaming API, exactly as the C code chains init/update/final. -/
def hash_leaf (data : List Byte) : List Byte :=
  sm3_final (sm3_update (sm3_update sm3_init [byteOf 0x00]) data)

/-- `hash_nodes`: RFC 6962 interior hash `SM3(0x01 || left || right)`. -/
def hash_nodes (l r : List Byte) : List Byte :=
  sm3_final (sm3_update (sm3_update (sm3_update sm3_init [byteOf 0x01]) l) r)

/-- A built Merkle tree node: its hash and children (the `merkle_node_t`
fields proof generation reads; `leaf_count` is recomputed by `mcount`,
matching what `merkle_tree_build` stores). -/
inductive MTree where
  | leaf : List Byte → MTree
  | node : List Byte → MTree → MTree → MTree

def mhash : MTree → List Byte
  | .leaf h => h
  | .node h _ _ => h

def mcount : MTree → Nat
  | .leaf _ => 1
  | .node _ l r => mcount l + mcount r

/-- One level of `merkle_tree_build`: hash adjacent pairs into parents,
promote a trailing odd node unchanged. -/
def merkle_level : List MTree → List MTree
  | a :: b :: rest => MTree.node (hash_nodes (mhash a) (mhash b)) a b :: merkle_level rest
  | [a] => [a]
  | [] => []

/-- The `while (current_count > 1)` loop of `merkle_tree_build`, with the
level width (which strictly decreases) as structural fuel. -/
def merkle_build_go : Nat → List MTree → List MTree
  | 0, l => l
  | fuel+1, l => if l.length ≤ 1 then l else merkle_build_go fuel (merkle_level l)

/-- `merkle_tree_build`: hash the leaves, then combine level by level;
returns the root node (`none` for an empty leaf sequence, where the C
function returns -1). -/
def merkle_tree_build (leaves : List (List Byte)) : Option MTree :=
  if leaves = [] then none
  else (merkle_build_go leaves.length
    (leaves.map (fun d => MTree.leaf (hash_leaf d)))).head?

def mroot (o : Option MTree) : MTree := o.getD (MTree.leaf [])

/-- `merkle_tree_generate_inclusion_proof`: walk from the root down to the
leaf, recording each sibling hash with its side (1 = sibling on the right,
0 = sibling on the left) — in root-to-leaf order. -/
def merkle_tree_generate_inclusion_proof : MTree → Nat → List (List Byte × Nat)
  | .leaf _, _ => []
  | .node _ l r, idx =>
    if idx < mcount l then (mhash r, 1) :: merkle_tree_generate_inclusion_proof l idx
    else (mhash l, 0) :: merkle_tree_generate_inclusion_proof r (idx - mcount l)

/-- `merkle_tree_verify_inclusion_proof`: return false for an empty path,
otherwise fold the recorded path in recorded order, combining the running
hash with each sibling on its recorded side, and compare against the
expected root. -/
def merkle_tree_verify_inclusion_proof (path : List (List Byte × Nat))
    (leaf_hash root_hash : List Byte) : Bool :=
  if path.length = 0 then false
  else
    (path.foldl
      (fun computed p =>
        if p.2 = 0 then hash_nodes p.1 computed else hash_nodes computed p.1)
      leaf_hash) == root_hash

/-- C2: verification of a generated inclusion proof FAILS.  Two facts are
proved.  (1) Concretely, for the (perfectly valid) single-leaf tree the
generated proof path is empty and `merkle_tree_verify_inclusion_proof`
rejects every empty path, so verification returns false.  (2) Symbolically,
for every tree of the 4-leaf shape the generator records the path
root-to-leaf — top-level sibling first: `[(sibling_of_level_1, right),
(leaf_sibling, right)]` — while the verifier folds the recorded list
front-to-back starting from the leaf hash, combining the TOP sibling first
and the leaf's own sibling last: it accepts iff
`hash_nodes (hash_nodes leaf s1) s2 == root`, although the root of a built
tree is `hash_nodes (hash_nodes leaf leaf_sibling) top_sibling`; the two
sides fold the path in opposite orders, so verification of a generated
proof recomputes the wrong root whenever the tree has height at least 2. -/
theorem merkle_inclusion_proof_order_bug :
    (merkle_tree_verify_inclusion_proof
        (merkle_tree_generate_inclusion_proof
          (mroot (merkle_tree_build [[byteOf 0x61]])) 0)
        (hash_leaf [byteOf 0x61])
        (mhash (mroot (merkle_tree_build [[byteOf 0x61]]))) = false) ∧
    (∀ (r h01 a b : List Byte) (sub : MTree),
      merkle_tree_generate_inclusion_proof
        (MTree.node r (MTree.node h01 (MTree.leaf a) (MTree.leaf b)) sub) 0 =
        [(mhash sub, 1), (b, 1)]) ∧
    (∀ (s1 s2 leaf_h root_h : List Byte),
      merkle_tree_verify_inclusion_proof [(s1, 1), (s2, 1)] leaf_h root_h =
        (hash_nodes (hash_nodes leaf_h s1) s2 == root_h)) := by
  refine ⟨by decide, ?_, ?_⟩
  · intro r h01 a b sub
    rfl
  · intro s1 s2 leaf_h root_h
    rfl
